import Mathlib

/-!
Verification development for the normalization / reconciliation / classification
core of the spotlightpa restaurant-inspections pipeline.

The Python sources are shallowly embedded as executable Lean definitions:

* strings are modelled as `List Char` (with `String` wrappers where convenient);
  the Python whitespace class and `str.strip` are modelled on the ASCII
  whitespace characters;
* `helpers/violations_helper.py` : `clean_violation_code`,
  `translate_priority_to_risk`, and the per-row resolution loop of
  `join_violation_details`;
* `helpers/categories_helper.py` : `upsert_categories` (both the credentialed
  merge path and the degraded local-only path) and
  `join_categories_into_inspections`;
* `helpers/ai_labeler.py` : `_parse_jsonl` (with a model of `json.loads`),
  candidate selection, prediction normalization and application of
  `label_categories_via_ai`.

Pandas dataframes are modelled as lists of records; `drop_duplicates`
(keep first) as `pyDedup` / `pyDedupBy`; `sort_values` as a deterministic
comparison sort on the lexicographic key; the boto3 / OpenAI transports are
out of scope (the claims are about the pure data transformations between the
I/O boundaries).
-/

namespace RestInspect

/-- Python regex class \s and str.isspace, restricted to the ASCII range
(the repository data is ASCII). -/
def pyIsSpace (c : Char) : Bool :=
  c == ' ' || c == '\t' || c == '\n' || c == '\r' || c == '\x0b' || c == '\x0c'

/-- Python str.strip() on a character list: drop whitespace from both ends. -/
def pyStrip (l : List Char) : List Char :=
  ((l.dropWhile pyIsSpace).reverse.dropWhile pyIsSpace).reverse

/-- Python str.strip() on a String. -/
def pyStripS (s : String) : String :=
  String.mk (pyStrip s.data)

/-- The character set of the Python calls rstrip(\x27- .\x27) / lstrip(\x27- .\x27)
in clean_violation_code. -/
def stripSetDHS (c : Char) : Bool :=
  c == '-' || c == ' ' || c == '.'

/-- Python str.rstrip(\x27- .\x27). -/
def rstripDHS (l : List Char) : List Char :=
  (l.reverse.dropWhile stripSetDHS).reverse

/-- Python str.lstrip(\x27- .\x27). -/
def lstripDHS (l : List Char) : List Char :=
  l.dropWhile stripSetDHS

/-- ASCII letter, the class [a-zA-Z] of the regex in clean_violation_code. -/
def isAsciiLetter (c : Char) : Bool :=
  ('a' ≤ c && c ≤ 'z') || ('A' ≤ c && c ≤ 'Z')

/-- Model of re.sub applied to pattern \( [^)]* \) with empty replacement:
scanning left to right, a match starts at an opening parenthesis that has some
closing parenthesis after it, and the match extends through the first such
closing parenthesis; matched spans are deleted. -/
def removeParens : List Char → List Char
  | [] => []
  | c :: t =>
    if c = '(' ∧ ')' ∈ t then removeParens ((t.dropWhile (fun d => d ≠ ')')).tail)
    else c :: removeParens t
termination_by l => l.length
decreasing_by
  · simp only [List.length_cons]
    have h1 : ((t.dropWhile (fun d => d ≠ ')')).tail).length ≤
        (t.dropWhile (fun d => d ≠ ')')).length := by
      rw [List.length_tail]; exact Nat.sub_le _ _
    have h2 : (t.dropWhile (fun d => d ≠ ')')).length ≤ t.length :=
      (List.dropWhile_sublist (fun d => d ≠ ')')).length_le
    omega
  · simp only [List.length_cons]
    exact Nat.lt_succ_self _

/-- Model of re.sub applied to pattern \s* - \s* with replacement " - ":
a match is a hyphen together with the whitespace runs around it; scanning is
left to right, so a whitespace run is part of a match only when a hyphen
follows it directly. -/
def normHyphens : List Char → List Char
  | [] => []
  | c :: t =>
    if c = '-' then ' ' :: '-' :: ' ' :: normHyphens (t.dropWhile pyIsSpace)
    else if pyIsSpace c then
      if (t.dropWhile pyIsSpace).head? = some '-' then
        ' ' :: '-' :: ' ' :: normHyphens (((t.dropWhile pyIsSpace).tail).dropWhile pyIsSpace)
      else (c :: t.takeWhile pyIsSpace) ++ normHyphens (t.dropWhile pyIsSpace)
    else c :: normHyphens t
termination_by l => l.length
decreasing_by
  · simp only [List.length_cons]
    exact Nat.lt_succ_of_le ((List.dropWhile_sublist pyIsSpace).length_le)
  · simp only [List.length_cons]
    have h1 : (((t.dropWhile pyIsSpace).tail).dropWhile pyIsSpace).length ≤
        ((t.dropWhile pyIsSpace).tail).length :=
      (List.dropWhile_sublist pyIsSpace).length_le
    have h2 : ((t.dropWhile pyIsSpace).tail).length ≤ (t.dropWhile pyIsSpace).length := by
      rw [List.length_tail]; exact Nat.sub_le _ _
    have h3 : (t.dropWhile pyIsSpace).length ≤ t.length :=
      (List.dropWhile_sublist pyIsSpace).length_le
    omega
  · simp only [List.length_cons]
    exact Nat.lt_succ_of_le ((List.dropWhile_sublist pyIsSpace).length_le)
  · simp only [List.length_cons]
    exact Nat.lt_succ_self _

/-- Model of re.sub applied to pattern [a-zA-Z] with empty replacement. -/
def removeLetters (l : List Char) : List Char :=
  l.filter (fun c => !isAsciiLetter c)

/-- Model of re.sub applied to pattern \s+ with replacement " ": every maximal
whitespace run becomes a single space. -/
def collapseSpaces : List Char → List Char
  | [] => []
  | c :: t =>
    if pyIsSpace c then ' ' :: collapseSpaces (t.dropWhile pyIsSpace)
    else c :: collapseSpaces t
termination_by l => l.length
decreasing_by
  · simp only [List.length_cons]
    exact Nat.lt_succ_of_le ((List.dropWhile_sublist pyIsSpace).length_le)
  · simp only [List.length_cons]
    exact Nat.lt_succ_self _

/-- clean_violation_code from helpers/violations_helper.py (the pd.isna branch
does not apply to genuine strings): strip, delete parenthesized spans,
normalize spacing around hyphens, delete ASCII letters, collapse whitespace
runs, strip trailing then leading hyphen/period/space characters, final strip. -/
def cleanViolationCode (l : List Char) : List Char :=
  pyStrip (lstripDHS (rstripDHS (collapseSpaces (removeLetters (normHyphens
    (removeParens (pyStrip l)))))))

/-- clean_violation_code on Lean strings. -/
def cleanViolationCodeS (s : String) : String :=
  String.mk (cleanViolationCode s.data)

/-- Heads surviving dropWhile falsify the predicate. -/
theorem head_dropWhile_false (p : Char → Bool) :
    ∀ (l : List Char) (a : Char), (l.dropWhile p).head? = some a → p a = false := by
  intro l
  induction l with
  | nil => intro a h; simp [List.dropWhile] at h
  | cons c t ih =>
    intro a h
    rw [List.dropWhile_cons] at h
    by_cases hc : p c = true
    · rw [if_pos hc] at h
      exact ih a h
    · rw [if_neg hc] at h
      simp only [List.head?_cons, Option.some.injEq] at h
      subst h
      simpa using hc

/-- dropWhile is the identity when the head falsifies the predicate. -/
theorem dropWhile_eq_self_of_head (p : Char → Bool) (l : List Char)
    (h : ∀ a, l.head? = some a → p a = false) : l.dropWhile p = l := by
  cases l with
  | nil => rfl
  | cons c t =>
    rw [List.dropWhile_cons, if_neg]
    simp [h c rfl]

/-- pyStrip gives a sublist. -/
theorem pyStrip_sublist (l : List Char) : List.Sublist (pyStrip l) l := by
  unfold pyStrip
  have h1 : List.Sublist ((l.dropWhile pyIsSpace).reverse.dropWhile pyIsSpace)
      (l.dropWhile pyIsSpace).reverse := List.dropWhile_sublist pyIsSpace
  have h2 := h1.reverse
  rw [List.reverse_reverse] at h2
  exact h2.trans (List.dropWhile_sublist pyIsSpace)

/-- The first character of a stripped string is not whitespace. -/
theorem pyStrip_head (l : List Char) (a : Char) (h : (pyStrip l).head? = some a) :
    pyIsSpace a = false := by
  unfold pyStrip at h
  rw [List.head?_reverse] at h
  have hne : (l.dropWhile pyIsSpace).reverse.dropWhile pyIsSpace ≠ [] := by
    intro hz
    rw [hz] at h
    simp at h
  have hdec := List.takeWhile_append_dropWhile (p := pyIsSpace)
    (l := (l.dropWhile pyIsSpace).reverse)
  have h3 : (l.dropWhile pyIsSpace).reverse.getLast? = some a := by
    rw [← hdec, List.getLast?_append_of_ne_nil _ hne]
    exact h
  rw [List.getLast?_reverse] at h3
  exact head_dropWhile_false pyIsSpace l a h3

/-- The last character of a stripped string is not whitespace. -/
theorem pyStrip_last (l : List Char) (a : Char) (h : (pyStrip l).getLast? = some a) :
    pyIsSpace a = false := by
  unfold pyStrip at h
  rw [List.getLast?_reverse] at h
  exact head_dropWhile_false pyIsSpace _ a h

/-- pyStrip is the identity when both ends are not whitespace. -/
theorem pyStrip_eq_self (l : List Char)
    (hh : ∀ a, l.head? = some a → pyIsSpace a = false)
    (hl : ∀ a, l.getLast? = some a → pyIsSpace a = false) : pyStrip l = l := by
  unfold pyStrip
  rw [dropWhile_eq_self_of_head pyIsSpace l hh, dropWhile_eq_self_of_head pyIsSpace l.reverse
    (fun a ha => hl a (by rwa [List.head?_reverse] at ha)), List.reverse_reverse]

/-- Python str.strip() is idempotent. -/
theorem pyStrip_idem (l : List Char) : pyStrip (pyStrip l) = pyStrip l :=
  pyStrip_eq_self (pyStrip l) (pyStrip_head l) (pyStrip_last l)

/-- pyStripS is idempotent. -/
theorem pyStripS_idem (s : String) : pyStripS (pyStripS s) = pyStripS s := by
  unfold pyStripS
  exact congrArg String.mk (pyStrip_idem s.data)

/-- Parenthesis characters. -/
def isParen (c : Char) : Bool :=
  c == '(' || c == ')'

/-- A list has a regex match of \( [^)]* \) iff some opening parenthesis has a
closing parenthesis somewhere after it. -/
def hasPat : List Char → Bool
  | [] => false
  | c :: t => if c = '(' then decide (')' ∈ t) else hasPat t

/-- A pattern needs a closing parenthesis. -/
theorem mem_of_hasPat : ∀ l : List Char, hasPat l = true → ')' ∈ l := by
  intro l
  induction l with
  | nil => intro h; simp [hasPat] at h
  | cons c t ih =>
    intro h
    rw [hasPat] at h
    by_cases hc : c = '('
    · rw [if_pos hc] at h
      exact List.mem_cons_of_mem c (of_decide_eq_true h)
    · rw [if_neg hc] at h
      exact List.mem_cons_of_mem c (ih h)

/-- If the closing parenthesis is absent then there is no pattern. -/
theorem hasPat_eq_false_of_not_mem (l : List Char) (h : ')' ∉ l) : hasPat l = false := by
  cases hp : hasPat l
  · rfl
  · exact absurd (mem_of_hasPat l hp) h

/-- Characters of removeParens output come from the input. -/
theorem mem_removeParens : ∀ l : List Char, ∀ a ∈ removeParens l, a ∈ l := by
  intro l
  induction l using removeParens.induct with
  | case1 => intro a ha; simp [removeParens] at ha
  | case2 c t h ih =>
    intro a ha
    rw [removeParens, if_pos h] at ha
    have h1 : List.Sublist ((t.dropWhile (fun d => d ≠ ')')).tail) t :=
      (List.tail_sublist _).trans (List.dropWhile_sublist _)
    exact List.mem_cons_of_mem c (h1.subset (ih a ha))
  | case3 c t h ih =>
    intro a ha
    rw [removeParens, if_neg h] at ha
    rcases List.mem_cons.mp ha with h1 | h1
    · exact h1 ▸ List.mem_cons_self a t
    · exact List.mem_cons_of_mem c (ih a h1)

/-- removeParens removes every pattern. -/
theorem hasPat_removeParens : ∀ l : List Char, hasPat (removeParens l) = false := by
  intro l
  induction l using removeParens.induct with
  | case1 => rw [removeParens]; rfl
  | case2 c t h ih => rw [removeParens, if_pos h]; exact ih
  | case3 c t h ih =>
    rw [removeParens, if_neg h, hasPat]
    by_cases hc : c = '('
    · rw [if_pos hc]
      have hnot : ')' ∉ t := fun hmem => h ⟨hc, hmem⟩
      exact decide_eq_false (fun hmem => hnot (mem_removeParens t _ hmem))
    · rw [if_neg hc]
      exact ih

/-- removeParens is the identity on pattern-free input. -/
theorem removeParens_eq_self : ∀ l : List Char, hasPat l = false → removeParens l = l := by
  intro l
  induction l using removeParens.induct with
  | case1 => intro _; rw [removeParens]
  | case2 c t h ih =>
    intro hp
    rw [hasPat, if_pos h.1] at hp
    exact absurd hp (by simp [h.2])
  | case3 c t h ih =>
    intro hp
    rw [removeParens, if_neg h]
    rw [hasPat] at hp
    by_cases hc : c = '('
    · rw [if_pos hc] at hp
      have hnot : ')' ∉ t := fun hmem => by simp [hmem] at hp
      rw [ih (hasPat_eq_false_of_not_mem t hnot)]
    · rw [if_neg hc] at hp
      rw [ih hp]

/-- hasPat only depends on the parenthesis characters. -/
theorem hasPat_filter_isParen : ∀ l : List Char, hasPat (l.filter isParen) = hasPat l := by
  intro l
  induction l with
  | nil => rfl
  | cons c t ih =>
    rw [List.filter_cons]
    by_cases hpar : isParen c = true
    · rw [if_pos hpar, hasPat, hasPat]
      by_cases hc : c = '('
      · rw [if_pos hc, if_pos hc]
        have : (')' ∈ t.filter isParen) ↔ (')' ∈ t) := by
          rw [List.mem_filter]
          exact ⟨fun h => h.1, fun h => ⟨h, by decide⟩⟩
        simp [this]
      · rw [if_neg hc, if_neg hc]; exact ih
    · rw [if_neg hpar, hasPat, if_neg (fun hc => hpar (by rw [hc]; decide))]
      exact ih

/-- Equal parenthesis projections give equal hasPat. -/
theorem hasPat_congr (l1 l2 : List Char) (h : l1.filter isParen = l2.filter isParen) :
    hasPat l1 = hasPat l2 := by
  rw [← hasPat_filter_isParen l1, ← hasPat_filter_isParen l2, h]

/-- A pattern in a left factor is a pattern of the whole list. -/
theorem hasPat_append_left : ∀ l1 l2 : List Char, hasPat l1 = true →
    hasPat (l1 ++ l2) = true := by
  intro l1 l2 h
  induction l1 with
  | nil => simp [hasPat] at h
  | cons c t ih =>
    rw [List.cons_append, hasPat]
    rw [hasPat] at h
    by_cases hc : c = '('
    · rw [if_pos hc] at h ⊢
      exact decide_eq_true (List.mem_append_left l2 (of_decide_eq_true h))
    · rw [if_neg hc] at h ⊢
      exact ih h

/-- A pattern in a right factor is a pattern of the whole list. -/
theorem hasPat_append_right : ∀ l1 l2 : List Char, hasPat l2 = true →
    hasPat (l1 ++ l2) = true := by
  intro l1 l2 h
  induction l1 with
  | nil => simpa using h
  | cons c t ih =>
    rw [List.cons_append, hasPat]
    by_cases hc : c = '('
    · rw [if_pos hc]
      exact decide_eq_true (List.mem_append_right t (mem_of_hasPat l2 h))
    · rw [if_neg hc]
      exact ih

/-- Pattern-freeness descends to both factors of an append. -/
theorem hasPat_false_of_append (l1 l2 : List Char) (h : hasPat (l1 ++ l2) = false) :
    hasPat l1 = false ∧ hasPat l2 = false := by
  constructor
  · cases hp : hasPat l1
    · rfl
    · rw [hasPat_append_left l1 l2 hp] at h; exact h
  · cases hp : hasPat l2
    · rfl
    · rw [hasPat_append_right l1 l2 hp] at h; exact h

/-- Enumeration of the modelled whitespace characters. -/
theorem sp_cases (a : Char) (h : pyIsSpace a = true) :
    a = ' ' ∨ a = '\t' ∨ a = '\n' ∨ a = '\r' ∨ a = '\x0b' ∨ a = '\x0c' := by
  have h2 := h
  simp [pyIsSpace] at h2
  tauto

/-- Bool helper: an equation to false refutes an equation to true. -/
theorem not_true_of_eq_false {b : Bool} (h : b = false) : ¬(b = true) := by
  simp [h]

/-- Whitespace is not a hyphen. -/
theorem sp_ne_hyph (a : Char) (h : pyIsSpace a = true) : a ≠ '-' := by
  intro he
  subst he
  exact absurd h (by decide)

/-- Whitespace is not a parenthesis. -/
theorem sp_not_paren (a : Char) (h : pyIsSpace a = true) : isParen a = false := by
  rcases sp_cases a h with h1 | h1 | h1 | h1 | h1 | h1 <;> subst h1 <;> decide

/-- A parenthesis is not an ASCII letter. -/
theorem paren_not_letter (a : Char) (h : isParen a = true) : isAsciiLetter a = false := by
  have h2 : a = '(' ∨ a = ')' := by simpa [isParen] using h
  rcases h2 with h1 | h1 <;> subst h1 <;> decide

/-- Lists are a cons of their head. -/
theorem eq_cons_of_head? (l : List Char) (a : Char) (h : l.head? = some a) :
    l = a :: l.tail := by
  cases l with
  | nil => simp at h
  | cons c t => simp only [List.head?_cons, Option.some.injEq] at h; rw [h]; rfl

/-- Dropping leading whitespace does not change the parenthesis projection. -/
theorem filter_isParen_dropWhile_sp (t : List Char) :
    (t.dropWhile pyIsSpace).filter isParen = t.filter isParen := by
  conv_rhs => rw [← List.takeWhile_append_dropWhile (p := pyIsSpace) (l := t)]
  rw [List.filter_append]
  have hnil : (t.takeWhile pyIsSpace).filter isParen = [] := by
    rw [List.filter_eq_nil_iff]
    intro a ha
    simp [sp_not_paren a (List.mem_takeWhile_imp ha)]
  rw [hnil, List.nil_append]

/-- normHyphens does not change the parenthesis projection. -/
theorem filter_isParen_normHyphens : ∀ l : List Char,
    (normHyphens l).filter isParen = l.filter isParen := by
  intro l
  induction l using normHyphens.induct with
  | case1 => rw [normHyphens]
  | case2 t ih =>
    rw [normHyphens, if_pos rfl]
    rw [List.filter_cons, if_neg (by decide), List.filter_cons, if_neg (by decide),
      List.filter_cons, if_neg (by decide), ih, filter_isParen_dropWhile_sp,
      List.filter_cons, if_neg (by decide)]
  | case3 c t hc hsp hhd ih =>
    rw [normHyphens, if_neg hc, if_pos hsp, if_pos hhd]
    rw [List.filter_cons, if_neg (by decide), List.filter_cons, if_neg (by decide),
      List.filter_cons, if_neg (by decide), ih, filter_isParen_dropWhile_sp]
    have hdec := eq_cons_of_head? _ _ hhd
    calc ((t.dropWhile pyIsSpace).tail).filter isParen
        = ('-' :: (t.dropWhile pyIsSpace).tail).filter isParen := by
          rw [List.filter_cons, if_neg (by decide)]
      _ = (t.dropWhile pyIsSpace).filter isParen := by rw [← hdec]
      _ = t.filter isParen := filter_isParen_dropWhile_sp t
      _ = (c :: t).filter isParen := by
          rw [List.filter_cons, if_neg (not_true_of_eq_false (sp_not_paren c hsp))]
  | case4 c t hc hsp hhd ih =>
    rw [normHyphens, if_neg hc, if_pos hsp, if_neg hhd]
    rw [List.filter_append, ih, filter_isParen_dropWhile_sp]
    have h1 : (c :: t.takeWhile pyIsSpace).filter isParen = [] := by
      rw [List.filter_eq_nil_iff]
      intro a ha
      rcases List.mem_cons.mp ha with h2 | h2
      · simp [h2, sp_not_paren c hsp]
      · simp [sp_not_paren a (List.mem_takeWhile_imp h2)]
    rw [h1, List.nil_append, List.filter_cons,
      if_neg (not_true_of_eq_false (sp_not_paren c hsp))]
  | case5 c t hc hsp ih =>
    rw [normHyphens, if_neg hc, if_neg hsp]
    rw [List.filter_cons, List.filter_cons, ih]

/-- collapseSpaces does not change the parenthesis projection. -/
theorem filter_isParen_collapseSpaces : ∀ l : List Char,
    (collapseSpaces l).filter isParen = l.filter isParen := by
  intro l
  induction l using collapseSpaces.induct with
  | case1 => rw [collapseSpaces]
  | case2 c t hsp ih =>
    rw [collapseSpaces, if_pos hsp]
    rw [List.filter_cons, if_neg (by decide), ih, filter_isParen_dropWhile_sp,
      List.filter_cons, if_neg (not_true_of_eq_false (sp_not_paren c hsp))]
  | case3 c t hsp ih =>
    rw [collapseSpaces, if_neg hsp]
    rw [List.filter_cons, List.filter_cons, ih]

/-- removeLetters does not change the parenthesis projection. -/
theorem filter_isParen_removeLetters (l : List Char) :
    (removeLetters l).filter isParen = l.filter isParen := by
  unfold removeLetters
  rw [List.filter_filter]
  apply List.filter_congr
  intro a _
  by_cases hp : isParen a = true
  · simp [hp, paren_not_letter a hp]
  · simp [Bool.eq_false_iff.mpr hp]

/-- Characters emitted by normHyphens come from the input or are space/hyphen. -/
theorem mem_normHyphens : ∀ l : List Char, ∀ a ∈ normHyphens l,
    a ∈ l ∨ a = ' ' ∨ a = '-' := by
  intro l
  induction l using normHyphens.induct with
  | case1 => intro a ha; rw [normHyphens] at ha; simp at ha
  | case2 t ih =>
    intro a ha
    rw [normHyphens, if_pos rfl] at ha
    simp only [List.mem_cons] at ha
    rcases ha with ha | ha | ha | ha
    · exact Or.inr (Or.inl ha)
    · exact Or.inr (Or.inr ha)
    · exact Or.inr (Or.inl ha)
    · rcases ih a ha with h1 | h1
      · exact Or.inl (List.mem_cons_of_mem '-' ((List.dropWhile_sublist pyIsSpace).subset h1))
      · exact Or.inr h1
  | case3 c t hc hsp hhd ih =>
    intro a ha
    rw [normHyphens, if_neg hc, if_pos hsp, if_pos hhd] at ha
    simp only [List.mem_cons] at ha
    rcases ha with ha | ha | ha | ha
    · exact Or.inr (Or.inl ha)
    · exact Or.inr (Or.inr ha)
    · exact Or.inr (Or.inl ha)
    · rcases ih a ha with h1 | h1
      · refine Or.inl (List.mem_cons_of_mem c ?_)
        have hsub : List.Sublist (((t.dropWhile pyIsSpace).tail).dropWhile pyIsSpace) t :=
          ((List.dropWhile_sublist pyIsSpace).trans (List.tail_sublist _)).trans
            (List.dropWhile_sublist pyIsSpace)
        exact hsub.subset h1
      · exact Or.inr h1
  | case4 c t hc hsp hhd ih =>
    intro a ha
    rw [normHyphens, if_neg hc, if_pos hsp, if_neg hhd] at ha
    rcases List.mem_append.mp ha with ha | ha
    · rcases List.mem_cons.mp ha with h1 | h1
      · exact Or.inl (h1 ▸ List.mem_cons_self c t)
      · exact Or.inl (List.mem_cons_of_mem c ((List.takeWhile_sublist pyIsSpace).subset h1))
    · rcases ih a ha with h1 | h1
      · exact Or.inl (List.mem_cons_of_mem c ((List.dropWhile_sublist pyIsSpace).subset h1))
      · exact Or.inr h1
  | case5 c t hc hsp ih =>
    intro a ha
    rw [normHyphens, if_neg hc, if_neg hsp] at ha
    rcases List.mem_cons.mp ha with h1 | h1
    · exact Or.inl (h1 ▸ List.mem_cons_self c t)
    · rcases ih a h1 with h2 | h2
      · exact Or.inl (List.mem_cons_of_mem c h2)
      · exact Or.inr h2

/-- Characters emitted by collapseSpaces are a single space or non-whitespace
characters of the input. -/
theorem mem_collapseSpaces : ∀ l : List Char, ∀ a ∈ collapseSpaces l,
    a = ' ' ∨ (a ∈ l ∧ pyIsSpace a = false) := by
  intro l
  induction l using collapseSpaces.induct with
  | case1 => intro a ha; rw [collapseSpaces] at ha; simp at ha
  | case2 c t hsp ih =>
    intro a ha
    rw [collapseSpaces, if_pos hsp] at ha
    rcases List.mem_cons.mp ha with h1 | h1
    · exact Or.inl h1
    · rcases ih a h1 with h2 | h2
      · exact Or.inl h2
      · exact Or.inr ⟨List.mem_cons_of_mem c ((List.dropWhile_sublist pyIsSpace).subset h2.1),
          h2.2⟩
  | case3 c t hsp ih =>
    intro a ha
    rw [collapseSpaces, if_neg hsp] at ha
    rcases List.mem_cons.mp ha with h1 | h1
    · exact Or.inr ⟨h1 ▸ List.mem_cons_self c t, h1 ▸ Bool.eq_false_iff.mpr hsp⟩
    · rcases ih a h1 with h2 | h2
      · exact Or.inl h2
      · exact Or.inr ⟨List.mem_cons_of_mem c h2.1, h2.2⟩

/-- Adjacency invariant produced by hyphen normalization: a hyphen sees a
single space on both sides. -/
def hyphR (a b : Char) : Prop :=
  (b = '-' → a = ' ') ∧ (a = '-' → b = ' ')

/-- Adjacency invariant after whitespace collapsing: additionally no two
adjacent whitespace characters. -/
def goodR (a b : Char) : Prop :=
  hyphR a b ∧ (pyIsSpace a = false ∨ pyIsSpace b = false)

/-- hyphR holds when neither side is a hyphen. -/
theorem hyphR_of_ne (a b : Char) (ha : a ≠ '-') (hb : b ≠ '-') : hyphR a b :=
  ⟨fun h => absurd h hb, fun h => absurd h ha⟩

/-- hyphR holds when the left side is a space and the right is not a hyphen. -/
theorem hyphR_sp_any (a b : Char) (ha : pyIsSpace a = true) (hb : b ≠ '-') : hyphR a b :=
  ⟨fun h => absurd h hb, fun h => absurd h (sp_ne_hyph a ha)⟩

/-- hyphR holds when the left side is the space character. -/
theorem hyphR_space_left (b : Char) : hyphR ' ' b :=
  ⟨fun _ => rfl, fun h => absurd h (by decide)⟩

/-- hyphR holds between a hyphen and a following space character. -/
theorem hyphR_hyph_space : hyphR '-' ' ' :=
  ⟨fun h => absurd h (by decide), fun _ => rfl⟩

/-- Elements named by getLast? are members. -/
theorem mem_of_getLast?_eq (l : List Char) (a : Char) (h : l.getLast? = some a) : a ∈ l := by
  rw [← List.head?_reverse] at h
  exact (List.mem_reverse).mp (List.mem_of_mem_head? h)

/-- Chain' restricts to the dropWhile suffix. -/
theorem chain_dropWhile {R : Char → Char → Prop} (p : Char → Bool) (l : List Char)
    (h : List.Chain' R l) : List.Chain' R (l.dropWhile p) := by
  conv at h => rw [← List.takeWhile_append_dropWhile (p := p) (l := l)]
  exact (List.chain'_append.mp h).2.1

/-- An all-whitespace list satisfies the hyphen chain. -/
theorem chain_hyphR_all_sp : ∀ l : List Char, (∀ a ∈ l, pyIsSpace a = true) →
    List.Chain' hyphR l := by
  intro l
  induction l with
  | nil => intro _; exact List.chain'_nil
  | cons c t ih =>
    intro h
    refine List.chain'_cons'.mpr ⟨?_, ih (fun a ha => h a (List.mem_cons_of_mem c ha))⟩
    intro y hy
    exact hyphR_sp_any c y (h c (List.mem_cons_self c t))
      (sp_ne_hyph y (h y (List.mem_cons_of_mem c (List.mem_of_mem_head? hy))))

/-- The output of normHyphens never starts with a hyphen. -/
theorem head_normHyphens_ne_hyph : ∀ (l : List Char) (a : Char),
    (normHyphens l).head? = some a → a ≠ '-' := by
  intro l
  induction l using normHyphens.induct with
  | case1 => intro a h; rw [normHyphens] at h; simp at h
  | case2 t ih =>
    intro a h
    rw [normHyphens, if_pos rfl] at h
    simp only [List.head?_cons, Option.some.injEq] at h
    subst h; decide
  | case3 c t hc hsp hhd ih =>
    intro a h
    rw [normHyphens, if_neg hc, if_pos hsp, if_pos hhd] at h
    simp only [List.head?_cons, Option.some.injEq] at h
    subst h; decide
  | case4 c t hc hsp hhd ih =>
    intro a h
    rw [normHyphens, if_neg hc, if_pos hsp, if_neg hhd, List.cons_append] at h
    simp only [List.head?_cons, Option.some.injEq] at h
    subst h
    exact sp_ne_hyph c hsp
  | case5 c t hc hsp ih =>
    intro a h
    rw [normHyphens, if_neg hc, if_neg hsp] at h
    simp only [List.head?_cons, Option.some.injEq] at h
    subst h
    exact hc

/-- The output of normHyphens satisfies the hyphen adjacency chain. -/
theorem chain_hyphR_normHyphens : ∀ l : List Char, List.Chain' hyphR (normHyphens l) := by
  intro l
  induction l using normHyphens.induct with
  | case1 => rw [normHyphens]; exact List.chain'_nil
  | case2 t ih =>
    rw [normHyphens, if_pos rfl]
    refine List.chain'_cons'.mpr ⟨?_, List.chain'_cons'.mpr ⟨?_,
      List.chain'_cons'.mpr ⟨?_, ih⟩⟩⟩
    · intro y hy
      simp only [List.head?_cons, Option.mem_def, Option.some.injEq] at hy
      subst hy
      exact ⟨fun _ => rfl, fun h => absurd h (by decide)⟩
    · intro y hy
      simp only [List.head?_cons, Option.mem_def, Option.some.injEq] at hy
      subst hy
      exact hyphR_hyph_space
    · intro y _
      exact hyphR_space_left y
  | case3 c t hc hsp hhd ih =>
    rw [normHyphens, if_neg hc, if_pos hsp, if_pos hhd]
    refine List.chain'_cons'.mpr ⟨?_, List.chain'_cons'.mpr ⟨?_,
      List.chain'_cons'.mpr ⟨?_, ih⟩⟩⟩
    · intro y hy
      simp only [List.head?_cons, Option.mem_def, Option.some.injEq] at hy
      subst hy
      exact ⟨fun _ => rfl, fun h => absurd h (by decide)⟩
    · intro y hy
      simp only [List.head?_cons, Option.mem_def, Option.some.injEq] at hy
      subst hy
      exact hyphR_hyph_space
    · intro y _
      exact hyphR_space_left y
  | case4 c t hc hsp hhd ih =>
    rw [normHyphens, if_neg hc, if_pos hsp, if_neg hhd]
    rw [List.chain'_append]
    refine ⟨?_, ih, ?_⟩
    · refine chain_hyphR_all_sp _ ?_
      intro a ha
      rcases List.mem_cons.mp ha with h1 | h1
      · exact h1 ▸ hsp
      · exact List.mem_takeWhile_imp h1
    · intro x hx y hy
      have hxmem : x ∈ c :: t.takeWhile pyIsSpace := mem_of_getLast?_eq _ x hx
      have hxsp : pyIsSpace x = true := by
        rcases List.mem_cons.mp hxmem with h1 | h1
        · exact h1 ▸ hsp
        · exact List.mem_takeWhile_imp h1
      exact hyphR_sp_any x y hxsp (head_normHyphens_ne_hyph _ y hy)
  | case5 c t hc hsp ih =>
    rw [normHyphens, if_neg hc, if_neg hsp]
    refine List.chain'_cons'.mpr ⟨?_, ih⟩
    intro y hy
    exact hyphR_of_ne c y hc (head_normHyphens_ne_hyph t y hy)

/-- Letter removal keeps the hyphen adjacency chain, and cannot surface a
hyphen as new head. -/
theorem chain_hyphR_removeLetters : ∀ l : List Char, List.Chain' hyphR l →
    List.Chain' hyphR (removeLetters l) ∧
      (∀ a, (removeLetters l).head? = some a → a = '-' → l.head? = some '-') := by
  intro l
  induction l with
  | nil =>
    intro _
    exact ⟨List.chain'_nil, by intro a h; simp [removeLetters] at h⟩
  | cons c t ih =>
    intro h
    obtain ⟨hrel, hch⟩ := List.chain'_cons'.mp h
    obtain ⟨iChain, iHead⟩ := ih hch
    by_cases hk : isAsciiLetter c = true
    · have hrl : removeLetters (c :: t) = removeLetters t := by
        unfold removeLetters
        rw [List.filter_cons, if_neg (by simp [hk])]
      rw [hrl]
      refine ⟨iChain, ?_⟩
      intro a ha hhy
      exfalso
      have h1 : t.head? = some '-' := iHead a ha hhy
      have h2 : hyphR c '-' := hrel '-' h1
      have h3 : c = ' ' := h2.1 rfl
      rw [h3] at hk
      exact absurd hk (by decide)
    · have hrl : removeLetters (c :: t) = c :: removeLetters t := by
        unfold removeLetters
        rw [List.filter_cons, if_pos (by simp [Bool.eq_false_iff.mpr hk])]
      rw [hrl]
      constructor
      · refine List.chain'_cons'.mpr ⟨?_, iChain⟩
        intro y hy
        constructor
        · intro hy'
          have h1 : t.head? = some '-' := iHead y hy hy'
          exact (hrel '-' h1).1 rfl
        · intro hc'
          cases ht : t with
          | nil =>
            rw [ht] at hy
            simp [removeLetters] at hy
          | cons d t2 =>
            have h1 : hyphR c d := hrel d (by rw [ht]; rfl)
            have h2 : d = ' ' := h1.2 hc'
            rw [ht, h2] at hy
            unfold removeLetters at hy
            rw [List.filter_cons, if_pos (by decide)] at hy
            simp only [List.head?_cons, Option.mem_def, Option.some.injEq] at hy
            rw [← hy]
      · intro a ha hhy
        simp only [List.head?_cons, Option.some.injEq] at ha
        rw [List.head?_cons, ha, hhy]

/-- Case analysis for the head of collapseSpaces output. -/
theorem head_collapse_cases (l : List Char) (y : Char)
    (h : (collapseSpaces l).head? = some y) :
    (pyIsSpace y = false ∧ l.head? = some y) ∨
      (y = ' ' ∧ ∃ a, l.head? = some a ∧ pyIsSpace a = true) := by
  cases l with
  | nil => rw [collapseSpaces] at h; simp at h
  | cons c t =>
    rw [collapseSpaces] at h
    by_cases hsp : pyIsSpace c = true
    · rw [if_pos hsp] at h
      simp only [List.head?_cons, Option.some.injEq] at h
      exact Or.inr ⟨h.symm, c, rfl, hsp⟩
    · rw [if_neg hsp] at h
      simp only [List.head?_cons, Option.some.injEq] at h
      exact Or.inl ⟨h ▸ Bool.eq_false_iff.mpr hsp, by rw [List.head?_cons, h]⟩

/-- Whitespace collapsing turns a hyphen chain into the full canonical
adjacency chain. -/
theorem chain_goodR_collapseSpaces : ∀ l : List Char, List.Chain' hyphR l →
    List.Chain' goodR (collapseSpaces l) := by
  intro l
  induction l using collapseSpaces.induct with
  | case1 => intro _; rw [collapseSpaces]; exact List.chain'_nil
  | case2 c t hsp ih =>
    intro h
    obtain ⟨hrel, hch⟩ := List.chain'_cons'.mp h
    rw [collapseSpaces, if_pos hsp]
    refine List.chain'_cons'.mpr ⟨?_, ih (chain_dropWhile pyIsSpace t hch)⟩
    intro y hy
    rcases head_collapse_cases _ y hy with ⟨hys, _⟩ | ⟨hy', a, hha, hasp⟩
    · exact ⟨hyphR_space_left y, Or.inr hys⟩
    · exact absurd hasp (by simp [head_dropWhile_false pyIsSpace t a hha])
  | case3 c t hsp ih =>
    intro h
    obtain ⟨hrel, hch⟩ := List.chain'_cons'.mp h
    rw [collapseSpaces, if_neg hsp]
    refine List.chain'_cons'.mpr ⟨?_, ih hch⟩
    intro y hy
    refine ⟨⟨?_, ?_⟩, Or.inl (Bool.eq_false_iff.mpr hsp)⟩
    · intro hy'
      rcases head_collapse_cases _ y hy with ⟨_, hhd⟩ | ⟨hy'', _⟩
      · exact (hrel '-' (hy' ▸ hhd)).1 rfl
      · rw [hy''] at hy'; exact absurd hy' (by decide)
    · intro hc'
      cases ht : t with
      | nil => rw [ht] at hy; rw [collapseSpaces] at hy; simp at hy
      | cons d t2 =>
        have h1 : hyphR c d := hrel d (by rw [ht]; rfl)
        have h2 : d = ' ' := h1.2 hc'
        rw [ht, h2] at hy
        rw [collapseSpaces, if_pos (by decide)] at hy
        simp only [List.head?_cons, Option.mem_def, Option.some.injEq] at hy
        rw [← hy]

/-- Whitespace characters of the list are all the plain space. -/
def wsOnly (l : List Char) : Prop :=
  ∀ a ∈ l, pyIsSpace a = true → a = ' '

/-- The last character is neither hyphen nor whitespace. -/
def lastHS (l : List Char) : Prop :=
  ∀ a, l.getLast? = some a → a ≠ '-' ∧ pyIsSpace a = false

/-- lastHS restricts to nonempty tails. -/
theorem lastHS_tail {c : Char} {t : List Char} (h : lastHS (c :: t)) : lastHS t := by
  intro a ha
  cases t with
  | nil => simp at ha
  | cons d t2 => exact h a (by rw [List.getLast?_cons_cons]; exact ha)

/-- wsOnly restricts to tails. -/
theorem wsOnly_tail {c : Char} {t : List Char} (h : wsOnly (c :: t)) : wsOnly t :=
  fun a ha hsp => h a (List.mem_cons_of_mem c ha) hsp

/-- Main inversion lemma: on canonical lists, whitespace collapsing undoes
hyphen normalization. The first conjunct handles an arbitrary canonical list
(a leading hyphen gains one leading space); the second conjunct handles the
recursive situation where leading whitespace was already consumed. -/
theorem collapse_normHyphens : ∀ (n : Nat) (u : List Char), u.length ≤ n →
    wsOnly u → List.Chain' goodR u → lastHS u →
    (collapseSpaces (normHyphens u) = if u.head? = some '-' then ' ' :: u else u) ∧
    ((∀ a, u.head? = some a → pyIsSpace a = false) →
      collapseSpaces ((normHyphens u).dropWhile pyIsSpace) = u) := by
  intro n
  induction n with
  | zero =>
    intro u hlen _ _ _
    have hu : u = [] := List.eq_nil_of_length_eq_zero (Nat.le_zero.mp hlen)
    subst hu
    constructor
    · rw [normHyphens, collapseSpaces, if_neg (by simp)]
    · intro _
      rw [normHyphens]
      rw [show (([] : List Char).dropWhile pyIsSpace) = [] from rfl, collapseSpaces]
  | succ n ihn =>
    intro u hlen hws hch hlast
    cases u with
    | nil =>
      constructor
      · rw [normHyphens, collapseSpaces, if_neg (by simp)]
      · intro _
        rw [normHyphens]
        rw [show (([] : List Char).dropWhile pyIsSpace) = [] from rfl, collapseSpaces]
    | cons c t =>
      obtain ⟨hrel, hcht⟩ := List.chain'_cons'.mp hch
      have hG1 : collapseSpaces (normHyphens (c :: t)) =
          if (c :: t).head? = some '-' then ' ' :: c :: t else c :: t := by
        by_cases hc : c = '-'
        · subst hc
          have htne : t ≠ [] := by
            intro h0
            subst h0
            exact absurd rfl (hlast '-' rfl).1
          obtain ⟨d, t1, rfl⟩ : ∃ d t1, t = d :: t1 := by
            cases t with
            | nil => exact absurd rfl htne
            | cons d t1 => exact ⟨d, t1, rfl⟩
          have hd : d = ' ' := (hrel d rfl).1.2 rfl
          subst hd
          obtain ⟨hrel2, hcht1⟩ := List.chain'_cons'.mp hcht
          have ht1head : ∀ a, t1.head? = some a → pyIsSpace a = false := by
            intro a ha
            rcases (hrel2 a ha).2 with h1 | h1
            · exact absurd h1 (by decide)
            · exact h1
          have hdrop : ((' ' :: t1).dropWhile pyIsSpace) = t1 := by
            rw [List.dropWhile_cons, if_pos (by decide)]
            exact dropWhile_eq_self_of_head pyIsSpace t1 ht1head
          rw [normHyphens, if_pos rfl, hdrop]
          rw [collapseSpaces, if_pos (by decide), List.dropWhile_cons, if_neg (by decide)]
          rw [collapseSpaces, if_neg (by decide), collapseSpaces, if_pos (by decide)]
          have hlen1 : t1.length ≤ n := by
            simp only [List.length_cons] at hlen
            omega
          have hIH := ihn t1 hlen1 (wsOnly_tail (wsOnly_tail hws))
            hcht1 (lastHS_tail (lastHS_tail hlast))
          rw [hIH.2 ht1head, if_pos (show ('-' :: ' ' :: t1).head? = some '-' from rfl)]
        · have hcsp : pyIsSpace c = true → c = ' ' := hws c (List.mem_cons_self c t)
          by_cases hsp : pyIsSpace c = true
          · have hceq : c = ' ' := hcsp hsp
            subst hceq
            have htne : t ≠ [] := by
              intro h0
              subst h0
              have h2 : pyIsSpace ' ' = false := (hlast ' ' rfl).2
              exact absurd h2 (by decide)
            obtain ⟨d, t1, rfl⟩ : ∃ d t1, t = d :: t1 := by
              cases t with
              | nil => exact absurd rfl htne
              | cons d t1 => exact ⟨d, t1, rfl⟩
            have hdsp : pyIsSpace d = false := by
              rcases (hrel d rfl).2 with h1 | h1
              · exact absurd h1 (by decide)
              · exact h1
            have hdropt : ((d :: t1).dropWhile pyIsSpace) = d :: t1 := by
              rw [List.dropWhile_cons, if_neg (by simp [hdsp])]
            by_cases hd : d = '-'
            · subst hd
              have ht1ne : t1 ≠ [] := by
                intro h0
                subst h0
                exact absurd rfl (hlast '-' (by rw [List.getLast?_cons_cons]; rfl)).1
              obtain ⟨e, t2, rfl⟩ : ∃ e t2, t1 = e :: t2 := by
                cases t1 with
                | nil => exact absurd rfl ht1ne
                | cons e t2 => exact ⟨e, t2, rfl⟩
              obtain ⟨hrel3, hcht2⟩ := List.chain'_cons'.mp hcht
              have he : e = ' ' := (hrel3 e rfl).1.2 rfl
              subst he
              obtain ⟨hrel4, hcht3⟩ := List.chain'_cons'.mp hcht2
              have ht2head : ∀ a, t2.head? = some a → pyIsSpace a = false := by
                intro a ha
                rcases (hrel4 a ha).2 with h1 | h1
                · exact absurd h1 (by decide)
                · exact h1
              rw [normHyphens, if_neg hc, if_pos hsp, if_pos (by rw [hdropt]; rfl), hdropt]
              have hdrop2 : ((' ' :: t2).dropWhile pyIsSpace) = t2 := by
                rw [List.dropWhile_cons, if_pos (by decide)]
                exact dropWhile_eq_self_of_head pyIsSpace t2 ht2head
              rw [show (('-' :: ' ' :: t2).tail) = ' ' :: t2 from rfl, hdrop2]
              rw [collapseSpaces, if_pos (by decide), List.dropWhile_cons, if_neg (by decide)]
              rw [collapseSpaces, if_neg (by decide), collapseSpaces, if_pos (by decide)]
              have hlen2 : t2.length ≤ n := by
                simp only [List.length_cons] at hlen
                omega
              have hIH := ihn t2 hlen2 (wsOnly_tail (wsOnly_tail (wsOnly_tail hws)))
                hcht3 (lastHS_tail (lastHS_tail (lastHS_tail hlast)))
              rw [hIH.2 ht2head, if_neg (by simp)]
            · rw [normHyphens, if_neg hc, if_pos hsp,
                if_neg (by rw [hdropt]; simp [hd]), hdropt]
              rw [show ((d :: t1).takeWhile pyIsSpace) = [] from by
                rw [List.takeWhile_cons, if_neg (by simp [hdsp])]]
              rw [show ((' ' :: ([] : List Char)) ++ normHyphens (d :: t1)) =
                ' ' :: normHyphens (d :: t1) from rfl]
              rw [collapseSpaces, if_pos (by decide)]
              have hlen2 : (d :: t1).length ≤ n := by
                simp only [List.length_cons] at hlen ⊢
                omega
              have hIH := ihn (d :: t1) hlen2 (wsOnly_tail hws) hcht (lastHS_tail hlast)
              have hdhead : ∀ a, (d :: t1).head? = some a → pyIsSpace a = false := by
                intro a ha
                simp only [List.head?_cons, Option.some.injEq] at ha
                rw [← ha]
                exact hdsp
              rw [hIH.2 hdhead, if_neg (by simp)]
          · rw [normHyphens, if_neg hc, if_neg hsp]
            rw [collapseSpaces, if_neg hsp]
            have hlen2 : t.length ≤ n := by
              simp only [List.length_cons] at hlen
              omega
            have hIH := ihn t hlen2 (wsOnly_tail hws) hcht (lastHS_tail hlast)
            have hthead : ¬ t.head? = some '-' := by
              intro hh
              have h1 : c = ' ' := (hrel '-' hh).1.1 rfl
              rw [h1] at hsp
              exact hsp (by decide)
            rw [hIH.1, if_neg hthead, if_neg (by simp [hc])]
      refine ⟨hG1, ?_⟩
      intro hhead
      have hcns : pyIsSpace c = false := hhead c rfl
      by_cases hc : c = '-'
      · subst hc
        have htne : t ≠ [] := by
          intro h0
          subst h0
          exact absurd rfl (hlast '-' rfl).1
        obtain ⟨d, t1, rfl⟩ : ∃ d t1, t = d :: t1 := by
          cases t with
          | nil => exact absurd rfl htne
          | cons d t1 => exact ⟨d, t1, rfl⟩
        have hd : d = ' ' := (hrel d rfl).1.2 rfl
        subst hd
        have hnh : normHyphens ('-' :: ' ' :: t1) =
            ' ' :: '-' :: ' ' :: normHyphens ((' ' :: t1).dropWhile pyIsSpace) := by
          rw [normHyphens, if_pos rfl]
        rw [hnh, List.dropWhile_cons, if_pos (by decide), List.dropWhile_cons,
          if_neg (by decide)]
        have hfromG1 : collapseSpaces (normHyphens ('-' :: ' ' :: t1)) =
            ' ' :: '-' :: ' ' :: t1 := by
          rw [hG1, if_pos (show ('-' :: ' ' :: t1).head? = some '-' from rfl)]
        rw [hnh] at hfromG1
        rw [collapseSpaces, if_pos (by decide), List.dropWhile_cons, if_neg (by decide)]
          at hfromG1
        injection hfromG1 with hx1 hx2
      · have hnh2 : normHyphens (c :: t) = c :: normHyphens t := by
          rw [normHyphens, if_neg hc, if_neg (by simp [hcns])]
        rw [hnh2, List.dropWhile_cons, if_neg (by simp [hcns])]
        rw [hnh2] at hG1
        rw [if_neg (by simp [hc])] at hG1
        exact hG1

/-- No ASCII letters occur in the list. -/
def noLetters (l : List Char) : Prop :=
  ∀ a ∈ l, isAsciiLetter a = false

/-- removeLetters output has no letters. -/
theorem noLetters_removeLetters (l : List Char) : noLetters (removeLetters l) := by
  intro a ha
  unfold removeLetters at ha
  have h2 := (List.mem_filter.mp ha).2
  simpa using h2

/-- removeLetters is the identity on letter-free lists. -/
theorem removeLetters_eq_self (l : List Char) (h : noLetters l) : removeLetters l = l := by
  unfold removeLetters
  rw [List.filter_eq_self]
  intro a ha
  simp [h a ha]

/-- Decomposition of a list at its dropped-from-the-right part. -/
theorem rev_dropWhile_decomp (p : Char → Bool) (l : List Char) :
    l = (l.reverse.dropWhile p).reverse ++ (l.reverse.takeWhile p).reverse := by
  conv_lhs => rw [← List.reverse_reverse l,
    ← List.takeWhile_append_dropWhile (p := p) (l := l.reverse)]
  rw [List.reverse_append]

/-- Chain' restricts to the left factor of an append. -/
theorem chain_append_left {R : Char → Char → Prop} (l1 l2 : List Char)
    (h : List.Chain' R (l1 ++ l2)) : List.Chain' R l1 :=
  (List.chain'_append.mp h).1

/-- Chain' restricts to the right factor of an append. -/
theorem chain_append_right {R : Char → Char → Prop} (l1 l2 : List Char)
    (h : List.Chain' R (l1 ++ l2)) : List.Chain' R l2 :=
  (List.chain'_append.mp h).2.1

/-- Canonical shape of clean_violation_code output: whitespace is a single
plain space, hyphens are flanked by single spaces, letters are gone, no
parenthesized span is left to remove, and the ends carry no
hyphen/space/period. -/
def canonical (t : List Char) : Prop :=
  wsOnly t ∧ List.Chain' goodR t ∧ noLetters t ∧ hasPat t = false ∧
    (∀ a, t.head? = some a → stripSetDHS a = false) ∧
    (∀ a, t.getLast? = some a → stripSetDHS a = false)

/-- In a wsOnly list, a character that is not in the strip set is not
whitespace either. -/
theorem not_sp_of_wsOnly_dhs {l : List Char} {a : Char} (hws : wsOnly l) (hmem : a ∈ l)
    (hdhs : stripSetDHS a = false) : pyIsSpace a = false := by
  by_cases hsp : pyIsSpace a = true
  · have h1 : a = ' ' := hws a hmem hsp
    rw [h1] at hdhs
    exact absurd hdhs (by decide)
  · simpa using hsp

/-- Pass through clean_violation_code leaves canonical lists unchanged. -/
theorem clean_of_canonical (t : List Char) (h : canonical t) :
    cleanViolationCode t = t := by
  obtain ⟨hws, hch, hnl, hpat, hhd, hlst⟩ := h
  have hhd2 : ∀ a, t.head? = some a → pyIsSpace a = false :=
    fun a ha => not_sp_of_wsOnly_dhs hws (List.mem_of_mem_head? ha) (hhd a ha)
  have hlst2 : ∀ a, t.getLast? = some a → pyIsSpace a = false :=
    fun a ha => not_sp_of_wsOnly_dhs hws (mem_of_getLast?_eq t a ha) (hlst a ha)
  have h1 : pyStrip t = t := pyStrip_eq_self t hhd2 hlst2
  have h2 : removeParens t = t := removeParens_eq_self t hpat
  have h3 : removeLetters (normHyphens t) = normHyphens t := by
    refine removeLetters_eq_self _ ?_
    intro a ha
    rcases mem_normHyphens t a ha with hm | hm | hm
    · exact hnl a hm
    · rw [hm]; decide
    · rw [hm]; decide
  have hlastHS : lastHS t := by
    intro a ha
    refine ⟨?_, hlst2 a ha⟩
    intro he
    rw [he] at ha
    have := hlst '-' ha
    exact absurd this (by decide)
  have hG := collapse_normHyphens t.length t le_rfl hws hch hlastHS
  have hhd3 : ¬ t.head? = some '-' := by
    intro hh
    have := hhd '-' hh
    exact absurd this (by decide)
  have h4 : collapseSpaces (normHyphens t) = t := by
    rw [hG.1, if_neg hhd3]
  have h5 : rstripDHS t = t := by
    unfold rstripDHS
    rw [dropWhile_eq_self_of_head stripSetDHS t.reverse
      (fun a ha => hlst a (by rwa [List.head?_reverse] at ha)), List.reverse_reverse]
  have h6 : lstripDHS t = t :=
    dropWhile_eq_self_of_head _ t hhd
  unfold cleanViolationCode
  rw [h1, h2, h3, h4, h5, h6, h1]

/-- The output of clean_violation_code is canonical. -/
theorem canonical_clean (l : List Char) :
    canonical (cleanViolationCode l) ∧
      cleanViolationCode l =
        lstripDHS (rstripDHS (collapseSpaces (removeLetters (normHyphens
          (removeParens (pyStrip l)))))) := by
  set y1 := removeParens (pyStrip l) with hy1
  set y2 := normHyphens y1 with hy2
  set y3 := removeLetters y2 with hy3
  set y4 := collapseSpaces y3 with hy4
  set y5 := rstripDHS y4 with hy5
  set y6 := lstripDHS y5 with hy6
  have hws4 : wsOnly y4 := by
    intro a ha hsp
    rcases mem_collapseSpaces y3 a ha with h1 | h1
    · exact h1
    · rw [h1.2] at hsp; exact absurd hsp (by simp)
  have hch4 : List.Chain' goodR y4 :=
    chain_goodR_collapseSpaces y3
      (chain_hyphR_removeLetters y2 (chain_hyphR_normHyphens y1)).1
  have hnl4 : noLetters y4 := by
    intro a ha
    rcases mem_collapseSpaces y3 a ha with h1 | h1
    · rw [h1]; decide
    · exact noLetters_removeLetters y2 a h1.1
  have hpat4 : hasPat y4 = false := by
    have p1 : hasPat y1 = false := hasPat_removeParens (pyStrip l)
    have p2 : hasPat y2 = hasPat y1 := hasPat_congr y2 y1 (filter_isParen_normHyphens y1)
    have p3 : hasPat y3 = hasPat y2 := hasPat_congr y3 y2 (filter_isParen_removeLetters y2)
    have p4 : hasPat y4 = hasPat y3 := hasPat_congr y4 y3 (filter_isParen_collapseSpaces y3)
    rw [p4, p3, p2, p1]
  have hdec5 : y4 = y5 ++ (y4.reverse.takeWhile stripSetDHS).reverse :=
    rev_dropWhile_decomp stripSetDHS y4
  have hsub5 : ∀ a ∈ y5, a ∈ y4 := by
    intro a ha
    rw [hdec5]
    exact List.mem_append_left _ ha
  have hlst5 : ∀ a, y5.getLast? = some a → stripSetDHS a = false := by
    intro a ha
    rw [hy5] at ha
    unfold rstripDHS at ha
    rw [List.getLast?_reverse] at ha
    exact head_dropWhile_false stripSetDHS y4.reverse a ha
  have hdec6 : y5 = y5.takeWhile stripSetDHS ++ y6 :=
    (List.takeWhile_append_dropWhile (p := stripSetDHS) (l := y5)).symm
  have hsub6 : ∀ a ∈ y6, a ∈ y4 := by
    intro a ha
    refine hsub5 a ?_
    rw [hdec6]
    exact List.mem_append_right _ ha
  have hws6 : wsOnly y6 := fun a ha hsp => hws4 a (hsub6 a ha) hsp
  have hch6 : List.Chain' goodR y6 := by
    refine chain_append_right _ _ (?_ : List.Chain' goodR (y5.takeWhile stripSetDHS ++ y6))
    rw [← hdec6]
    refine chain_append_left _ _ (?_ : List.Chain' goodR
      (y5 ++ (y4.reverse.takeWhile stripSetDHS).reverse))
    rw [← hdec5]
    exact hch4
  have hnl6 : noLetters y6 := fun a ha => hnl4 a (hsub6 a ha)
  have hpat6 : hasPat y6 = false := by
    have q5 : hasPat y5 = false := by
      have := hpat4
      rw [hdec5] at this
      exact (hasPat_false_of_append _ _ this).1
    have := q5
    rw [hdec6] at this
    exact (hasPat_false_of_append _ _ this).2
  have hhd6 : ∀ a, y6.head? = some a → stripSetDHS a = false := by
    intro a ha
    rw [hy6] at ha
    exact head_dropWhile_false stripSetDHS y5 a ha
  have hlst6 : ∀ a, y6.getLast? = some a → stripSetDHS a = false := by
    intro a ha
    cases hy6e : y6 with
    | nil => rw [hy6e] at ha; simp at ha
    | cons d t2 =>
      refine hlst5 a ?_
      rw [hdec6, List.getLast?_append_of_ne_nil _ (by rw [hy6e]; simp)]
      exact ha
  have hstrip : pyStrip y6 = y6 := by
    refine pyStrip_eq_self y6 ?_ ?_
    · exact fun a ha => not_sp_of_wsOnly_dhs hws6 (List.mem_of_mem_head? ha) (hhd6 a ha)
    · exact fun a ha => not_sp_of_wsOnly_dhs hws6 (mem_of_getLast?_eq y6 a ha) (hlst6 a ha)
  have hclean : cleanViolationCode l = y6 := by
    unfold cleanViolationCode
    rw [← hy1, ← hy2, ← hy3, ← hy4, ← hy5, ← hy6, hstrip]
  refine ⟨?_, hclean⟩
  rw [hclean]
  exact ⟨hws6, hch6, hnl6, hpat6, hhd6, hlst6⟩

/-- clean_violation_code is idempotent on character lists. -/
theorem cleanViolationCode_idem (l : List Char) :
    cleanViolationCode (cleanViolationCode l) = cleanViolationCode l :=
  clean_of_canonical (cleanViolationCode l) (canonical_clean l).1

/-- C10: the violation-code cleaning function is idempotent: for every input
string s, clean_violation_code (clean_violation_code s) = clean_violation_code s. -/
theorem c10_clean_violation_code_idempotent (s : String) :
    cleanViolationCodeS (cleanViolationCodeS s) = cleanViolationCodeS s := by
  unfold cleanViolationCodeS
  exact congrArg String.mk (cleanViolationCode_idem s.data)

/-- C6 counterexample: clean_violation_code applied to
"103.4(a)(1) - Equipment" does not return "103.4 - Equipment" (the letter
removal step deletes the word Equipment). -/
theorem c6_counterexample_clean_code :
    cleanViolationCodeS "103.4(a)(1) - Equipment" ≠ "103.4 - Equipment" := by
  simp +decide [cleanViolationCodeS, cleanViolationCode, pyStrip, lstripDHS, rstripDHS,
    collapseSpaces, removeLetters, normHyphens, removeParens, pyIsSpace, isAsciiLetter,
    stripSetDHS, String.data]

/-- C6 amended: clean_violation_code applied to "103.4(a)(1) - Equipment"
returns "103.4": the parenthesized spans and all alphabetic characters are
removed, and the then-trailing " - " separator is stripped. -/
theorem c6_amended_clean_code :
    cleanViolationCodeS "103.4(a)(1) - Equipment" = "103.4" := by
  simp +decide [cleanViolationCodeS, cleanViolationCode, pyStrip, lstripDHS, rstripDHS,
    collapseSpaces, removeLetters, normHyphens, removeParens, pyIsSpace, isAsciiLetter,
    stripSetDHS, String.data]

/-- Python str.split(sep) for a one-character separator: the empty string
gives a single empty field; separators delimit fields. -/
def splitOnChar (sep : Char) : List Char → List (List Char)
  | [] => [[]]
  | c :: cs =>
    if c = sep then [] :: splitOnChar sep cs
    else
      match splitOnChar sep cs with
      | [] => [[c]]
      | l :: ls => (c :: l) :: ls

/-- The sentinel "NA" of join_violation_details. -/
def naL : List Char :=
  ['N', 'A']

/-- Text of the risk label for one priority token in
translate_priority_to_risk. -/
def riskOf (part : List Char) : List Char :=
  if part = ['P'] then "high risk".data
  else if part = ['P', 'f'] then "moderate risk".data
  else if part = ['C'] then "low risk".data
  else naL

/-- translate_priority_to_risk from helpers/violations_helper.py: empty or
"NA" input maps to "NA"; otherwise each comma-separated token is stripped,
translated through the risk map with fallback "NA", and rejoined with ", ". -/
def translateRisk (l : List Char) : List Char :=
  if l = [] ∨ l = naL then naL
  else List.intercalate [',', ' '] (((splitOnChar ',' l).map pyStrip).map riskOf)

/-- One row of the food-codes lookup CSV (columns Requirement,
Spotlight PA Category, Priority Level, Requirement Description). -/
structure FoodCode where
  requirement : String
  spotlight : String
  priority : String
  description : String
deriving DecidableEq

/-- The lookup dictionary built by join_violation_details: rows with a
non-empty stripped Requirement are inserted in order, later rows overwriting
earlier ones (Python dict assignment), so lookup finds the last such row. -/
def foodLookup (tbl : List FoodCode) (k : List Char) : Option FoodCode :=
  tbl.reverse.find? (fun e =>
    decide (pyStrip e.requirement.data = k ∧ pyStrip e.requirement.data ≠ []))

/-- The stripped pipe-separated violation codes of one inspection row. -/
def violCodes (vc : List Char) : List (List Char) :=
  (splitOnChar '|' vc).map pyStrip

/-- The stripped pipe-separated descriptions of one inspection row, padded
with empty strings up to the number of codes. -/
def violDescsPadded (vc vd : List Char) : List (List Char) :=
  let descs := (splitOnChar '|' vd).map pyStrip
  descs ++ List.replicate ((violCodes vc).length - descs.length) []

/-- The per-code resolution loop of join_violation_details: each cleaned code
is looked up; a hit contributes the looked-up category, priority,
priority-derived risk and description; a miss contributes the "NA" sentinel
three times together with the original description paired positionally with
the code. -/
def resolveParts (tbl : List FoodCode) (vc vd : List Char) :
    List (List Char × List Char × List Char × List Char) :=
  ((violCodes vc).zip (violDescsPadded vc vd)).map (fun p =>
    match foodLookup tbl (cleanViolationCode p.1) with
    | some e => (e.spotlight.data, e.priority.data, translateRisk e.priority.data,
        e.description.data)
    | none => (naL, naL, naL, p.2))

/-- Pipe join " | " of the resolved parts. -/
def joinPipe (parts : List (List Char)) : List Char :=
  List.intercalate [' ', '|', ' '] parts

/-- The four output cells of join_violation_details for one row: blank cells
for a blank violation_code cell, otherwise the pipe-joined resolved parts. -/
def joinViolationRow (tbl : List FoodCode) (vc vd : List Char) :
    List Char × List Char × List Char × List Char :=
  if pyStrip vc = [] then ([], [], [], [])
  else
    (joinPipe ((resolveParts tbl vc vd).map (fun p => p.1)),
     joinPipe ((resolveParts tbl vc vd).map (fun p => p.2.1)),
     joinPipe ((resolveParts tbl vc vd).map (fun p => p.2.2.1)),
     joinPipe ((resolveParts tbl vc vd).map (fun p => p.2.2.2)))

/-- Zip getElem? from components. -/
theorem getElem?_zip_of_both {α β : Type} (l1 : List α) (l2 : List β) (i : Nat)
    (a : α) (b : β) (h1 : l1[i]? = some a) (h2 : l2[i]? = some b) :
    (l1.zip l2)[i]? = some (a, b) := by
  induction l1 generalizing l2 i with
  | nil => simp at h1
  | cons x xs ih =>
    cases l2 with
    | nil => simp at h2
    | cons y ys =>
      cases i with
      | zero =>
        simp only [List.getElem?_cons_zero, Option.some.injEq] at h1 h2
        simp [List.zip_cons_cons, h1, h2]
      | succ j =>
        simp only [List.getElem?_cons_succ] at h1 h2
        simpa [List.zip_cons_cons] using ih ys j h1 h2

/-- C5: for every cleaned violation code absent from the lookup table, the
resolution loop emits the sentinel "NA" for category, priority level and risk
level, and emits as description the original description text positionally
paired with that code; a lookup miss is never an error. -/
theorem c5_lookup_miss_na_sentinel (tbl : List FoodCode) (vc vd : List Char) (i : Nat)
    (code : List Char)
    (hcode : (violCodes vc)[i]? = some code)
    (hmiss : foodLookup tbl (cleanViolationCode code) = none) :
    ∃ d, (violDescsPadded vc vd)[i]? = some d ∧
      (resolveParts tbl vc vd)[i]? = some (naL, naL, naL, d) := by
  have hi : i < (violCodes vc).length := by
    by_contra hge
    rw [List.getElem?_eq_none (Nat.le_of_not_lt hge)] at hcode
    exact absurd hcode (by simp)
  have hlen : (violCodes vc).length ≤ (violDescsPadded vc vd).length := by
    unfold violDescsPadded
    rw [List.length_append, List.length_replicate]
    omega
  have hd : ∃ d, (violDescsPadded vc vd)[i]? = some d := by
    have h2 : i < (violDescsPadded vc vd).length := Nat.lt_of_lt_of_le hi hlen
    exact ⟨(violDescsPadded vc vd)[i], List.getElem?_eq_some_iff.mpr ⟨h2, rfl⟩⟩
  obtain ⟨d, hdeq⟩ := hd
  refine ⟨d, hdeq, ?_⟩
  unfold resolveParts
  rw [List.getElem?_map, getElem?_zip_of_both _ _ i code d hcode hdeq]
  simp [hmiss]

/-- Witness for C5 at a concrete miss: code "9.9" is absent from a table that
only knows "1.1", so the resolved tuple is ("NA","NA","NA", original text). -/
theorem c5_lookup_miss_na_sentinel_witness :
    ∃ d, (violDescsPadded "9.9".data "orig text".data)[0]? = some d ∧
      (resolveParts [⟨"1.1", "Cat", "P", "Desc"⟩] "9.9".data "orig text".data)[0]? =
        some (naL, naL, naL, d) :=
  c5_lookup_miss_na_sentinel [⟨"1.1", "Cat", "P", "Desc"⟩] "9.9".data "orig text".data 0
    "9.9".data (by rfl)
    (by simp +decide [foodLookup, cleanViolationCode, pyStrip, lstripDHS, rstripDHS,
      collapseSpaces, removeLetters, normHyphens, removeParens, pyIsSpace, isAsciiLetter,
      stripSetDHS])

/-- One row of the categories reference store
(columns facility,address,city,category). -/
structure CatRow where
  facility : String
  address : String
  city : String
  category : String
deriving DecidableEq

/-- One row of the inspections working table; only the columns touched by the
categories reconciler are modelled explicitly, the remaining cells ride along
in rest and are never modified. -/
structure InsRow where
  facility : String
  address : String
  city : String
  category : String
  rest : String
deriving DecidableEq

/-- The per-column fillna("").astype(str).str.strip() normalization applied by
upsert_categories and join_categories_into_inspections when a store frame is
loaded. -/
def stripCatRow (r : CatRow) : CatRow :=
  ⟨pyStripS r.facility, pyStripS r.address, pyStripS r.city, pyStripS r.category⟩

/-- The _composite_key helper of helpers/categories_helper.py: strip the three
key columns and join them with "||". -/
def ckey (r : CatRow) : String :=
  pyStripS r.facility ++ "||" ++ pyStripS r.address ++ "||" ++ pyStripS r.city

/-- The (facility, address, city) triple of a store row. -/
def key3 (r : CatRow) : String × String × String :=
  (r.facility, r.address, r.city)

/-- The (facility, address, city) triple of a working-table row. -/
def tripleOfIns (r : InsRow) : String × String × String :=
  (r.facility, r.address, r.city)

/-- pandas drop_duplicates keyed through f, keeping the first occurrence. -/
def pyDedupBy {α κ : Type} [DecidableEq κ] (f : α → κ) : List α → List α
  | [] => []
  | a :: l => a :: pyDedupBy f (l.filter (fun b => f b ≠ f a))
termination_by l => l.length
decreasing_by
  simp only [List.length_cons]
  exact Nat.lt_succ_of_le (List.length_filter_le _ l)

/-- pandas drop_duplicates on whole rows, keeping the first occurrence. -/
def pyDedup {α : Type} [DecidableEq α] : List α → List α :=
  pyDedupBy id

/-- Lexicographic sort key used by sort_values(["facility","address","city"]). -/
def keyTuple (r : CatRow) : String ×ₗ String ×ₗ String :=
  toLex (r.facility, toLex (r.address, r.city))

/-- The sort order of sort_values(["facility","address","city"]). -/
def keyLe (a b : CatRow) : Prop :=
  keyTuple a ≤ keyTuple b

instance : DecidableRel keyLe :=
  fun a b => inferInstanceAs (Decidable (keyTuple a ≤ keyTuple b))

instance : IsTotal CatRow keyLe :=
  ⟨fun a b => le_total (keyTuple a) (keyTuple b)⟩

instance : IsTrans CatRow keyLe :=
  ⟨fun _ _ _ h1 h2 => le_trans h1 h2⟩

/-- Deterministic comparison sort modelling sort_values on the composite key. -/
def sortByKey (l : List CatRow) : List CatRow :=
  List.insertionSort keyLe l

/-- The unique whitespace-stripped triples of the inspection batch, with a
blank category placeholder (upsert_categories lines 38-44). -/
def batchUniques (table : List InsRow) : List CatRow :=
  (pyDedup (table.map (fun r =>
    (pyStripS r.facility, pyStripS r.address, pyStripS r.city)))).map
    (fun k => ⟨k.1, k.2.1, k.2.2, ""⟩)

/-- The credentialed merge path of upsert_categories: load and normalize the
existing store, append the batch triples whose composite key is absent, then
deduplicate whole rows, sort by the key columns, and write the result back. -/
def upsertMerge (existing : List CatRow) (table : List InsRow) : List CatRow :=
  let uniques := batchUniques table
  let ex := existing.map stripCatRow
  let newRows := uniques.filter (fun u => ex.all (fun e => ckey e ≠ ckey u))
  sortByKey (pyDedup (ex ++ newRows))

/-- The degraded path of upsert_categories taken when the AWS environment
variables are absent: the existing store is never read; the file written is
just the batch triples with blank categories. -/
def upsertLocalOnly (table : List InsRow) : List CatRow :=
  batchUniques table

/-- Strip of the three join columns of the working table. -/
def stripInsKeys (r : InsRow) : InsRow :=
  { r with
    facility := pyStripS r.facility
    address := pyStripS r.address
    city := pyStripS r.city }

/-- Set the category cell of a working-table row (insert or replace the
column next to city). -/
def setCat (r : InsRow) (v : String) : InsRow :=
  { r with category := v }

/-- The store as processed by join_categories_into_inspections before the
lookup dict is built: normalized, sorted by key and deduplicated on the key
columns keeping the first occurrence. -/
def catsProcessed (store : List CatRow) : List CatRow :=
  pyDedupBy key3 (sortByKey (store.map stripCatRow))

/-- The exact-match lookup of join_categories_into_inspections: the category
of the processed store row carrying the triple, or "" on a miss. -/
def lookupCat (store : List CatRow) (k : String × String × String) : String :=
  match (catsProcessed store).find? (fun c => decide (key3 c = k)) with
  | some c => c.category
  | none => ""

/-- join_categories_into_inspections on the working table: strip the join
columns, then set the category cell of every row from the store lookup
(missing triples get ""). -/
def joinCats (table : List InsRow) (store : List CatRow) : List InsRow :=
  (table.map stripInsKeys).map (fun r => setCat r (lookupCat store (tripleOfIns r)))

/-- pyDedupBy returns a sublist. -/
theorem pyDedupBy_sublist {α κ : Type} [DecidableEq κ] (f : α → κ) :
    ∀ l : List α, List.Sublist (pyDedupBy f l) l := by
  intro l
  induction l using pyDedupBy.induct f with
  | case1 => rw [pyDedupBy]
  | case2 a l ih =>
    rw [pyDedupBy]
    exact List.Sublist.cons₂ a (ih.trans (List.filter_sublist l))

/-- Full-row dedup keeps exactly the original members. -/
theorem mem_pyDedup {α : Type} [DecidableEq α] :
    ∀ (l : List α) (a : α), a ∈ pyDedup l ↔ a ∈ l := by
  intro l
  induction l using pyDedupBy.induct (id : α → α) with
  | case1 =>
    intro a
    rw [pyDedup, pyDedupBy]
  | case2 b l ih =>
    intro a
    rw [pyDedup, pyDedupBy]
    constructor
    · intro h
      rcases List.mem_cons.mp h with h1 | h1
      · exact h1 ▸ List.mem_cons_self b l
      · have h2 := (ih a).mp h1
        exact List.mem_cons_of_mem b ((List.filter_sublist l).subset h2)
    · intro h
      rcases List.mem_cons.mp h with h1 | h1
      · exact h1 ▸ List.mem_cons_self b _
      · by_cases hab : a = b
        · exact hab ▸ List.mem_cons_self b _
        · refine List.mem_cons_of_mem b ((ih a).mpr ?_)
          rw [List.mem_filter]
          exact ⟨h1, by simpa using hab⟩

/-- pyDedupBy output has pairwise distinct keys. -/
theorem pairwise_pyDedupBy {α κ : Type} [DecidableEq κ] (f : α → κ) :
    ∀ l : List α, (pyDedupBy f l).Pairwise (fun a b => f a ≠ f b) := by
  intro l
  induction l using pyDedupBy.induct f with
  | case1 => rw [pyDedupBy]; exact List.Pairwise.nil
  | case2 a l ih =>
    rw [pyDedupBy]
    refine List.Pairwise.cons ?_ ih
    intro b hb
    have h1 : b ∈ l.filter (fun b => f b ≠ f a) :=
      (pyDedupBy_sublist f _).subset hb
    have h2 := (List.mem_filter.mp h1).2
    intro he
    rw [he] at h2
    simp at h2

/-- pyDedupBy is the identity on key-distinct lists. -/
theorem pyDedupBy_eq_self {α κ : Type} [DecidableEq κ] (f : α → κ) :
    ∀ l : List α, l.Pairwise (fun a b => f a ≠ f b) → pyDedupBy f l = l := by
  intro l
  induction l using pyDedupBy.induct f with
  | case1 => intro _; rw [pyDedupBy]
  | case2 a l ih =>
    intro h
    obtain ⟨hhead, htail⟩ := List.pairwise_cons.mp h
    rw [pyDedupBy]
    have hf : l.filter (fun b => f b ≠ f a) = l := by
      rw [List.filter_eq_self]
      intro b hb
      simpa using (hhead b hb).symm
    rw [hf] at ih ⊢
    rw [ih htail]

/-- pyDedup output has no duplicate rows. -/
theorem nodup_pyDedup {α : Type} [DecidableEq α] (l : List α) : (pyDedup l).Nodup := by
  have h := pairwise_pyDedupBy (id : α → α) l
  exact h.imp (fun hne => hne)

/-- pyDedup is the identity on duplicate-free lists. -/
theorem pyDedup_eq_self {α : Type} [DecidableEq α] (l : List α) (h : l.Nodup) :
    pyDedup l = l :=
  pyDedupBy_eq_self id l (h.imp (fun hne => hne))

/-- sortByKey is a permutation. -/
theorem sortByKey_perm (l : List CatRow) : (sortByKey l).Perm l :=
  List.perm_insertionSort keyLe l

/-- sortByKey preserves membership. -/
theorem mem_sortByKey (l : List CatRow) (a : CatRow) : a ∈ sortByKey l ↔ a ∈ l :=
  (sortByKey_perm l).mem_iff

/-- sortByKey output is sorted. -/
theorem sorted_sortByKey (l : List CatRow) : List.Sorted keyLe (sortByKey l) :=
  List.sorted_insertionSort keyLe l

/-- sortByKey is the identity on sorted input. -/
theorem sortByKey_eq_self (l : List CatRow) (h : List.Sorted keyLe l) :
    sortByKey l = l :=
  h.insertionSort_eq

/-- Equal triples give equal composite keys. -/
theorem ckey_eq_of_key3_eq (a b : CatRow) (h : key3 a = key3 b) : ckey a = ckey b := by
  unfold key3 at h
  obtain ⟨h1, h2, h3⟩ : a.facility = b.facility ∧ a.address = b.address ∧ a.city = b.city := by
    simpa [Prod.ext_iff] using h
  unfold ckey
  rw [h1, h2, h3]

/-- stripCatRow is idempotent. -/
theorem stripCatRow_idem (r : CatRow) : stripCatRow (stripCatRow r) = stripCatRow r := by
  unfold stripCatRow
  simp [pyStripS_idem]

/-- Rows of batchUniques are already stripped. -/
theorem stripCatRow_batchUniques (T : List InsRow) :
    ∀ r ∈ batchUniques T, stripCatRow r = r := by
  intro r hr
  unfold batchUniques at hr
  obtain ⟨k, hk, hmk⟩ := List.mem_map.mp hr
  have hsrc : k ∈ T.map (fun r =>
      (pyStripS r.facility, pyStripS r.address, pyStripS r.city)) :=
    (mem_pyDedup _ k).mp hk
  obtain ⟨x, _, hx⟩ := List.mem_map.mp hsrc
  rw [← hmk, ← hx]
  unfold stripCatRow
  simp [pyStripS_idem]
  rfl

/-- Every row of the merged store is stripped. -/
theorem stripped_upsertMerge (S : List CatRow) (T : List InsRow) :
    ∀ r ∈ upsertMerge S T, stripCatRow r = r := by
  intro r hr
  unfold upsertMerge at hr
  rw [mem_sortByKey, mem_pyDedup] at hr
  rcases List.mem_append.mp hr with h1 | h1
  · obtain ⟨x, _, hx⟩ := List.mem_map.mp h1
    rw [← hx]
    exact stripCatRow_idem x
  · exact stripCatRow_batchUniques T r ((List.filter_sublist _).subset h1)

/-- Distinctness of triples is a symmetric relation. -/
theorem key3_ne_symm : Symmetric (fun a b : CatRow => key3 a ≠ key3 b) := by
  intro a b h he
  exact h he.symm

/-- C2 (amended): in the credentialed merge path of upsert_categories, every
row of the loaded (whitespace-normalized) store — in particular every row
whose label is non-empty — is still present in the store written back; the
merge only appends new triples and never rewrites an existing row. In the
degraded local-only path this fails (see the counterexample). -/
theorem c2_upsert_preserves_nonempty_labels (S : List CatRow) (T : List InsRow)
    (r : CatRow) (hr : r ∈ S.map stripCatRow) (hlab : r.category ≠ "") :
    r ∈ upsertMerge S T := by
  unfold upsertMerge
  rw [mem_sortByKey, mem_pyDedup]
  exact List.mem_append_left _ hr

/-- Witness for C2 (amended) at a concrete store and batch. -/
theorem c2_upsert_preserves_nonempty_labels_witness :
    (⟨"F", "A", "C", "Pizza"⟩ : CatRow) ∈
      upsertMerge [⟨"F", "A", "C", "Pizza"⟩] [⟨"G", "B", "D", "", "x"⟩] :=
  c2_upsert_preserves_nonempty_labels [⟨"F", "A", "C", "Pizza"⟩]
    [⟨"G", "B", "D", "", "x"⟩] ⟨"F", "A", "C", "Pizza"⟩ (by decide) (by decide)

/-- C2 counterexample: in the degraded mode (AWS credentials absent),
upsert_categories writes only the batch triples with blank labels over the
local store; a store row whose label was "Pizza" is not present in the file
written back, so label preservation does not hold in every configuration. -/
theorem c2_counterexample_degraded_mode :
    (⟨"F", "A", "C", "Pizza"⟩ : CatRow) ∈
      ([⟨"F", "A", "C", "Pizza"⟩] : List CatRow).map stripCatRow ∧
    (⟨"F", "A", "C", "Pizza"⟩ : CatRow) ∉ upsertLocalOnly [⟨"F", "A", "C", "", "x"⟩] := by
  constructor
  · decide
  · simp +decide [upsertLocalOnly, batchUniques, pyDedup, pyDedupBy, pyStripS, pyStrip,
      pyIsSpace]

/-- Triples of batchUniques rows are pairwise distinct. -/
theorem pairwise_key3_batchUniques (T : List InsRow) :
    (batchUniques T).Pairwise (fun a b => key3 a ≠ key3 b) := by
  unfold batchUniques
  rw [List.pairwise_map]
  refine (pairwise_pyDedupBy id _).imp ?_
  intro a b hne he
  apply hne
  obtain ⟨a1, a2, a3⟩ := a
  obtain ⟨b1, b2, b3⟩ := b
  simpa [key3] using he

/-- C3 (amended): provided the pre-existing store has no two rows sharing a
(stripped) composite triple, the store written by the merge path of
upsert_categories has no two rows sharing a triple: existing keys stay
distinct, batch triples are deduplicated, and a batch triple equal to an
existing key is filtered out. -/
theorem c3_upsert_unique_keys (S : List CatRow) (T : List InsRow)
    (hU : (S.map stripCatRow).Pairwise (fun a b => key3 a ≠ key3 b)) :
    (upsertMerge S T).Pairwise (fun a b => key3 a ≠ key3 b) := by
  unfold upsertMerge
  refine List.Pairwise.perm ?_ (sortByKey_perm _).symm (fun h he => h he.symm)
  refine List.Pairwise.sublist (pyDedupBy_sublist id _) ?_
  rw [List.pairwise_append]
  refine ⟨hU, List.Pairwise.sublist (List.filter_sublist _)
    (pairwise_key3_batchUniques T), ?_⟩
  intro e he u hu hkey
  have hpred := (List.mem_filter.mp hu).2
  rw [List.all_eq_true] at hpred
  have h2 := hpred e he
  rw [decide_eq_true_iff] at h2
  exact h2 (ckey_eq_of_key3_eq e u hkey)

/-- Witness for C3 (amended) at a concrete store and batch. -/
theorem c3_upsert_unique_keys_witness :
    (upsertMerge [⟨"F", "A", "C", "X"⟩] [⟨"G", "B", "D", "", "x"⟩]).Pairwise
      (fun a b => key3 a ≠ key3 b) :=
  c3_upsert_unique_keys [⟨"F", "A", "C", "X"⟩] [⟨"G", "B", "D", "", "x"⟩] (by decide)

/-- C3 counterexample: for a pre-existing store that already carries two rows
with the same triple but different labels, the written store keeps both (the
final drop_duplicates works on whole rows, not on the composite key), so the
universally quantified claim is false. -/
theorem c3_counterexample_duplicate_store :
    ¬ (upsertMerge [⟨"F", "A", "C", ""⟩, ⟨"F", "A", "C", "X"⟩]
        [⟨"F", "A", "C", "", "x"⟩]).Pairwise (fun a b => key3 a ≠ key3 b) := by
  simp +decide [upsertMerge, batchUniques, pyDedup, pyDedupBy, stripCatRow, pyStripS,
    pyStrip, pyIsSpace, ckey, sortByKey, List.insertionSort, List.orderedInsert,
    keyLe, keyTuple, key3]

/-- C4: after the join step, the row at every position of the working table
is its whitespace-stripped original with the category cell set from the store
lookup; when the stripped triple carries a (unique-keyed) store row the cell
equals that row's label, and when no store row carries the triple the cell is
the empty string — a miss is never an error. -/
theorem c4_join_exact_match (S : List CatRow) (T : List InsRow) (i : Nat) (r : InsRow)
    (hU : (S.map stripCatRow).Pairwise (fun a b => key3 a ≠ key3 b))
    (hr : T[i]? = some r) :
    (joinCats T S)[i]? =
      some (setCat (stripInsKeys r) (lookupCat S (tripleOfIns (stripInsKeys r)))) ∧
    (∀ c ∈ S.map stripCatRow, key3 c = tripleOfIns (stripInsKeys r) →
      lookupCat S (tripleOfIns (stripInsKeys r)) = c.category) ∧
    ((∀ c ∈ S.map stripCatRow, key3 c ≠ tripleOfIns (stripInsKeys r)) →
      lookupCat S (tripleOfIns (stripInsKeys r)) = "") := by
  have hproc : catsProcessed S = sortByKey (S.map stripCatRow) := by
    unfold catsProcessed
    refine pyDedupBy_eq_self key3 _ ?_
    exact List.Pairwise.perm hU (sortByKey_perm _).symm (fun h he => h he.symm)
  refine ⟨?_, ?_, ?_⟩
  · unfold joinCats
    rw [List.getElem?_map, List.getElem?_map, hr]
    rfl
  · intro c hc hkey
    have hc2 : c ∈ catsProcessed S := by
      rw [hproc, mem_sortByKey]
      exact hc
    unfold lookupCat
    cases hfind : (catsProcessed S).find?
        (fun x => decide (key3 x = tripleOfIns (stripInsKeys r))) with
    | none =>
      exfalso
      have h2 := List.find?_eq_none.mp hfind c hc2
      simp [hkey] at h2
    | some c2 =>
      have hp := List.find?_some hfind
      have hmem := List.mem_of_find?_eq_some hfind
      have hk2 : key3 c2 = tripleOfIns (stripInsKeys r) := of_decide_eq_true hp
      have hc2mem : c2 ∈ S.map stripCatRow := by
        rw [hproc, mem_sortByKey] at hmem
        exact hmem
      by_cases heq : c2 = c
      · rw [heq]
      · exfalso
        exact (hU.forall key3_ne_symm hc2mem hc heq) (hk2.trans hkey.symm)
  · intro hnone
    unfold lookupCat
    have hfind : (catsProcessed S).find?
        (fun x => decide (key3 x = tripleOfIns (stripInsKeys r))) = none := by
      rw [List.find?_eq_none]
      intro x hx
      have hx2 : x ∈ S.map stripCatRow := by
        have h3 := (pyDedupBy_sublist key3 _).subset hx
        exact (mem_sortByKey _ x).mp h3
      simp [hnone x hx2]
    rw [hfind]

/-- Witness for C4 at a concrete store and table: the row's triple needs
stripping, matches the store, and receives the stored label. -/
theorem c4_join_exact_match_witness :
    (joinCats [⟨" F ", "A", "C", "", "x"⟩] [⟨"F", "A", "C", "Deli"⟩])[0]? =
      some (setCat (stripInsKeys ⟨" F ", "A", "C", "", "x"⟩)
        (lookupCat [⟨"F", "A", "C", "Deli"⟩]
          (tripleOfIns (stripInsKeys ⟨" F ", "A", "C", "", "x"⟩)))) ∧
    (∀ c ∈ ([⟨"F", "A", "C", "Deli"⟩] : List CatRow).map stripCatRow,
      key3 c = tripleOfIns (stripInsKeys ⟨" F ", "A", "C", "", "x"⟩) →
      lookupCat [⟨"F", "A", "C", "Deli"⟩]
        (tripleOfIns (stripInsKeys ⟨" F ", "A", "C", "", "x"⟩)) = c.category) ∧
    ((∀ c ∈ ([⟨"F", "A", "C", "Deli"⟩] : List CatRow).map stripCatRow,
      key3 c ≠ tripleOfIns (stripInsKeys ⟨" F ", "A", "C", "", "x"⟩)) →
      lookupCat [⟨"F", "A", "C", "Deli"⟩]
        (tripleOfIns (stripInsKeys ⟨" F ", "A", "C", "", "x"⟩)) = "") :=
  c4_join_exact_match [⟨"F", "A", "C", "Deli"⟩] [⟨" F ", "A", "C", "", "x"⟩] 0
    ⟨" F ", "A", "C", "", "x"⟩ (by decide) (by rfl)

/-- The category cell never changes the join key of a row. -/
theorem tripleOfIns_setCat (r : InsRow) (v : String) :
    tripleOfIns (setCat r v) = tripleOfIns r := by
  rfl

/-- Setting the category twice keeps the last value. -/
theorem setCat_setCat (r : InsRow) (v w : String) :
    setCat (setCat r v) w = setCat r w := by
  rfl

/-- Stripping the join columns commutes with setting the category cell. -/
theorem stripInsKeys_setCat (r : InsRow) (v : String) :
    stripInsKeys (setCat r v) = setCat (stripInsKeys r) v := by
  rfl

/-- Stripping the join columns is idempotent. -/
theorem stripInsKeys_idem (r : InsRow) :
    stripInsKeys (stripInsKeys r) = stripInsKeys r := by
  unfold stripInsKeys
  simp [pyStripS_idem]

/-- The joined table does not change the batch triples seen by upsert. -/
theorem batchUniques_joinCats (T : List InsRow) (S : List CatRow) :
    batchUniques (joinCats T S) = batchUniques T := by
  unfold batchUniques joinCats
  simp only [List.map_map]
  have h := List.map_congr_left (l := T) (fun r hr =>
    (by simp [Function.comp, setCat, stripInsKeys, pyStripS_idem] :
      ((fun r => (pyStripS r.facility, pyStripS r.address, pyStripS r.city)) ∘
        ((fun r => setCat r (lookupCat S (tripleOfIns r))) ∘ stripInsKeys)) r =
      (fun r => (pyStripS r.facility, pyStripS r.address, pyStripS r.city)) r))
  rw [show ((fun r => (pyStripS r.facility, pyStripS r.address, pyStripS r.city)) ∘
        (fun r => setCat r (lookupCat S (tripleOfIns r))) ∘ stripInsKeys) =
      ((fun r => (pyStripS r.facility, pyStripS r.address, pyStripS r.city)) ∘
        ((fun r => setCat r (lookupCat S (tripleOfIns r))) ∘ stripInsKeys)) from rfl, h]

/-- Every batch triple has its composite key present in the merged store. -/
theorem mem_upsertMerge_of_uniques (S : List CatRow) (T : List InsRow) :
    ∀ u ∈ batchUniques T, ∃ e ∈ upsertMerge S T, ckey e = ckey u := by
  intro u hu
  unfold upsertMerge
  by_cases hall : (S.map stripCatRow).all (fun e => decide (ckey e ≠ ckey u)) = true
  · refine ⟨u, ?_, rfl⟩
    rw [mem_sortByKey, mem_pyDedup]
    refine List.mem_append_right _ ?_
    rw [List.mem_filter]
    exact ⟨hu, hall⟩
  · rw [List.all_eq_true] at hall
    push_neg at hall
    obtain ⟨e, he, hne⟩ := hall
    refine ⟨e, ?_, ?_⟩
    · rw [mem_sortByKey, mem_pyDedup]
      exact List.mem_append_left _ he
    · have h2 : ¬ (ckey e ≠ ckey u) := by simpa using hne
      exact not_not.mp h2

/-- C1: with a fixed working table and no new data, the second run of
upsert-then-join is a no-op: the store written by the second upsert equals
the store written by the first, and the table produced by the second join
equals the table produced by the first. -/
theorem c1_upsert_join_idempotent (S0 : List CatRow) (T : List InsRow) :
    upsertMerge (upsertMerge S0 T) (joinCats T (upsertMerge S0 T)) = upsertMerge S0 T ∧
    joinCats (joinCats T (upsertMerge S0 T)) (upsertMerge S0 T) =
      joinCats T (upsertMerge S0 T) := by
  constructor
  · have hstr : (upsertMerge S0 T).map stripCatRow = upsertMerge S0 T := by
      rw [List.map_congr_left (fun r hr => stripped_upsertMerge S0 T r hr)]
      exact List.map_id _
    conv_lhs => rw [upsertMerge]
    rw [hstr, batchUniques_joinCats]
    have hnil : (batchUniques T).filter
        (fun u => (upsertMerge S0 T).all (fun e => decide (ckey e ≠ ckey u))) = [] := by
      rw [List.filter_eq_nil_iff]
      intro u hu
      obtain ⟨e, he, hke⟩ := mem_upsertMerge_of_uniques S0 T u hu
      simp only [List.all_eq_true, not_forall]
      refine ⟨e, he, ?_⟩
      simp [hke]
    rw [hnil, List.append_nil]
    have hnd : (upsertMerge S0 T).Nodup := by
      rw [upsertMerge]
      exact ((sortByKey_perm _).nodup_iff).mpr (nodup_pyDedup _)
    rw [pyDedup_eq_self _ hnd]
    refine sortByKey_eq_self _ ?_
    rw [upsertMerge]
    exact sorted_sortByKey _
  · unfold joinCats
    simp only [List.map_map]
    refine List.map_congr_left ?_
    intro r _
    simp only [Function.comp]
    rw [stripInsKeys_setCat, stripInsKeys_idem, tripleOfIns_setCat, setCat_setCat]

/-- Parsed JSON value, the model of the result of json.loads. Numbers keep
their lexeme and strings keep their raw (escape-carrying) source text; the
claims only compare values produced by the same parser. -/
inductive JVal where
  | null : JVal
  | bool (b : Bool) : JVal
  | num (lit : String) : JVal
  | str (raw : String) : JVal
  | arr (elems : List JVal) : JVal
  | obj (fields : List (String × JVal)) : JVal

/-- JSON insignificant whitespace. -/
def jsonWs (c : Char) : Bool :=
  c == ' ' || c == '\t' || c == '\n' || c == '\r'

/-- Skip JSON whitespace. -/
def dropJWs (l : List Char) : List Char :=
  l.dropWhile jsonWs

/-- ASCII decimal digit. -/
def isDigit (c : Char) : Bool :=
  '0' ≤ c && c ≤ '9'

/-- ASCII hexadecimal digit. -/
def isHexDigit (c : Char) : Bool :=
  isDigit c || ('a' ≤ c && c ≤ 'f') || ('A' ≤ c && c ≤ 'F')

/-- Scan a JSON string body after the opening quote; returns the raw source
characters of the body and the remainder after the closing quote. Enforces
the json.loads (strict) grammar: no raw control characters and only the
standard escapes. -/
def scanJString : List Char → Option (List Char × List Char)
  | [] => none
  | c :: t =>
    if c = '"' then some ([], t)
    else if c = '\\' then
      match t with
      | [] => none
      | e :: t2 =>
        if e = '"' ∨ e = '\\' ∨ e = '/' ∨ e = 'b' ∨ e = 'f' ∨ e = 'n' ∨ e = 'r' ∨ e = 't'
        then
          match scanJString t2 with
          | some (s, rest) => some (c :: e :: s, rest)
          | none => none
        else if e = 'u' then
          match t2 with
          | h1 :: h2 :: h3 :: h4 :: t3 =>
            if isHexDigit h1 && isHexDigit h2 && isHexDigit h3 && isHexDigit h4 then
              match scanJString t3 with
              | some (s, rest) => some (c :: e :: h1 :: h2 :: h3 :: h4 :: s, rest)
              | none => none
            else none
          | _ => none
        else none
    else if ' ' ≤ c then
      match scanJString t with
      | some (s, rest) => some (c :: s, rest)
      | none => none
    else none

/-- Scan a JSON number according to the json grammar
(-? int frac? exp?, no leading zeros); returns the lexeme and remainder. -/
def scanJNumber (l : List Char) : Option (List Char × List Char) :=
  let stepInt : List Char → Option (List Char × List Char) := fun l1 =>
    match l1 with
    | [] => none
    | c :: t =>
      if c = '0' then some (['0'], t)
      else if isDigit c then some (c :: t.takeWhile isDigit, t.dropWhile isDigit)
      else none
  let stepFrac : List Char → Option (List Char × List Char) := fun l2 =>
    match l2 with
    | '.' :: t =>
      if (t.takeWhile isDigit) = [] then none
      else some ('.' :: t.takeWhile isDigit, t.dropWhile isDigit)
    | _ => some ([], l2)
  let stepExp : List Char → Option (List Char × List Char) := fun l3 =>
    match l3 with
    | e :: t =>
      if e = 'e' ∨ e = 'E' then
        match t with
        | s :: t2 =>
          if s = '+' ∨ s = '-' then
            if (t2.takeWhile isDigit) = [] then none
            else some (e :: s :: t2.takeWhile isDigit, t2.dropWhile isDigit)
          else if (t.takeWhile isDigit) = [] then none
          else some (e :: t.takeWhile isDigit, t.dropWhile isDigit)
        | [] => none
      else some ([], l3)
    | [] => some ([], l3)
  let start : List Char × List Char :=
    match l with
    | '-' :: t => (['-'], t)
    | _ => ([], l)
  match stepInt start.2 with
  | none => none
  | some (ip, r1) =>
    match stepFrac r1 with
    | none => none
    | some (fp, r2) =>
      match stepExp r2 with
      | none => none
      | some (ep, r3) => some (start.1 ++ ip ++ fp ++ ep, r3)

/-- Combined result type of the three JSON parsing modes
(value / object members / array items). -/
inductive JOut where
  | v (x : JVal) : JOut
  | ms (x : List (String × JVal)) : JOut
  | vs (x : List JVal) : JOut

/-- Recursive-descent JSON parser with fuel (the model of json.loads),
written as a single structurally recursive function so that it evaluates by
kernel reduction: mode 0 parses a value (consuming leading whitespace), mode
1 parses one or more comma-separated object members, mode 2 parses one or
more comma-separated array items. -/
def parseJ : Nat → Nat → List Char → Option (JOut × List Char)
  | 0, _, _ => none
  | fuel + 1, mode, l =>
    if mode = 0 then
      match dropJWs l with
      | [] => none
      | c :: t =>
        if c = '\x7b' then
          match dropJWs t with
          | '\x7d' :: t3 => some (JOut.v (JVal.obj []), t3)
          | t2 =>
            match parseJ fuel 1 t2 with
            | some (JOut.ms ms, rest) =>
              match dropJWs rest with
              | '\x7d' :: t3 => some (JOut.v (JVal.obj ms), t3)
              | _ => none
            | _ => none
        else if c = '[' then
          match dropJWs t with
          | ']' :: t3 => some (JOut.v (JVal.arr []), t3)
          | t2 =>
            match parseJ fuel 2 t2 with
            | some (JOut.vs vs, rest) =>
              match dropJWs rest with
              | ']' :: t3 => some (JOut.v (JVal.arr vs), t3)
              | _ => none
            | _ => none
        else if c = '"' then
          match scanJString t with
          | some (s, rest) => some (JOut.v (JVal.str (String.mk s)), rest)
          | none => none
        else if c = 't' then
          match t with
          | 'r' :: 'u' :: 'e' :: t3 => some (JOut.v (JVal.bool true), t3)
          | _ => none
        else if c = 'f' then
          match t with
          | 'a' :: 'l' :: 's' :: 'e' :: t3 => some (JOut.v (JVal.bool false), t3)
          | _ => none
        else if c = 'n' then
          match t with
          | 'u' :: 'l' :: 'l' :: t3 => some (JOut.v JVal.null, t3)
          | _ => none
        else
          match scanJNumber (c :: t) with
          | some (lex, rest) => some (JOut.v (JVal.num (String.mk lex)), rest)
          | none => none
    else if mode = 1 then
      match dropJWs l with
      | '"' :: t =>
        match scanJString t with
        | some (k, rest) =>
          match dropJWs rest with
          | ':' :: rest2 =>
            match parseJ fuel 0 rest2 with
            | some (JOut.v v, rest3) =>
              match dropJWs rest3 with
              | ',' :: rest4 =>
                match parseJ fuel 1 rest4 with
                | some (JOut.ms ms, rest5) => some (JOut.ms ((String.mk k, v) :: ms), rest5)
                | _ => none
              | _ => some (JOut.ms [(String.mk k, v)], rest3)
            | _ => none
          | _ => none
        | none => none
      | _ => none
    else
      match parseJ fuel 0 l with
      | some (JOut.v v, rest) =>
        match dropJWs rest with
        | ',' :: rest2 =>
          match parseJ fuel 2 rest2 with
          | some (JOut.vs vs, rest3) => some (JOut.vs (v :: vs), rest3)
          | _ => none
        | _ => some (JOut.vs [v], rest)
      | _ => none

/-- Parse one JSON value (mode 0 of parseJ). -/
def parseJVal (fuel : Nat) (l : List Char) : Option (JVal × List Char) :=
  match parseJ fuel 0 l with
  | some (JOut.v x, rest) => some (x, rest)
  | _ => none

/-- json.loads on a character list: parse one value and require only
whitespace after it. -/
def jsonLoads (l : List Char) : Option JVal :=
  match parseJVal (l.length + 1) l with
  | some (v, rest) => if dropJWs rest = [] then some v else none
  | none => none

/-- Python str.replace(pat, rep): replace non-overlapping occurrences left to
right (identity for the unused empty pattern, which Python treats
differently but the labeler never passes). -/
def replaceAll (pat rep : List Char) : List Char → List Char
  | [] => []
  | c :: t =>
    if pat ≠ [] ∧ pat.isPrefixOf (c :: t) then
      rep ++ replaceAll pat rep ((c :: t).drop pat.length)
    else c :: replaceAll pat rep t
termination_by l => l.length
decreasing_by
  · rename_i h
    have hp : 1 ≤ pat.length := by
      cases hpat : pat with
      | nil => exact absurd hpat h.1
      | cons a b => simp
    simp only [List.length_drop, List.length_cons]
    omega
  · simp only [List.length_cons]
    exact Nat.lt_succ_self _

/-- Characters that do not break a line. -/
def notNL (c : Char) : Bool :=
  !(c == '\n') && !(c == '\r')

/-- Python str.splitlines restricted to the line breaks occurring in LLM
responses: LF, CR and CRLF; a trailing break opens no empty final line. -/
def pySplitlines : List Char → List (List Char)
  | [] => []
  | c :: t =>
    let rest := (c :: t).dropWhile notNL
    if hr : rest = [] then [(c :: t).takeWhile notNL]
    else if rest.head? = some '\r' ∧ rest.tail.head? = some '\n' then
      (c :: t).takeWhile notNL :: pySplitlines rest.tail.tail
    else (c :: t).takeWhile notNL :: pySplitlines rest.tail
termination_by l => l.length
decreasing_by
  · have h1 : ((c :: t).dropWhile notNL).length ≤ (c :: t).length :=
      (List.dropWhile_sublist notNL).length_le
    have h2 : 1 ≤ ((c :: t).dropWhile notNL).length := by
      cases hq : (c :: t).dropWhile notNL with
      | nil => exact absurd hq hr
      | cons x xs => simp
    simp only [List.length_tail, List.length_cons] at h1 h2 ⊢
    omega
  · have h1 : ((c :: t).dropWhile notNL).length ≤ (c :: t).length :=
      (List.dropWhile_sublist notNL).length_le
    have h2 : 1 ≤ ((c :: t).dropWhile notNL).length := by
      cases hq : (c :: t).dropWhile notNL with
      | nil => exact absurd hq hr
      | cons x xs => simp
    simp only [List.length_tail, List.length_cons] at h1 h2 ⊢
    omega

/-- Python str.rstrip(",") used on candidate JSON lines. -/
def rstripCommas (l : List Char) : List Char :=
  (l.reverse.dropWhile (fun c => c = ',')).reverse

/-- The slice line[line.find("\x7b") : line.rfind("\x7d")+1] of _parse_jsonl. -/
def sliceBraces (t : List Char) : List Char :=
  ((t.dropWhile (fun c => c ≠ '\x7b')).reverse.dropWhile (fun c => c ≠ '\x7d')).reverse

/-- Treatment of one line by _parse_jsonl: strip it; skip empty lines; for a
line that starts with an opening brace and contains a closing one, try
json.loads of the line with trailing commas removed; if that fails, or for
any line containing a brace pair, try json.loads of the substring between the
first opening and last closing brace; lines that still fail are discarded. -/
def lineHandle (line : List Char) : Option JVal :=
  let t := pyStrip line
  if t = [] then none
  else if t.head? = some '\x7b' ∧ '\x7d' ∈ t then
    match jsonLoads (rstripCommas t) with
    | some o => some o
    | none => if '\x7b' ∈ t ∧ '\x7d' ∈ t then jsonLoads (sliceBraces t) else none
  else if '\x7b' ∈ t ∧ '\x7d' ∈ t then jsonLoads (sliceBraces t) else none

/-- _parse_jsonl from helpers/ai_labeler.py: remove markdown fences
(s.replace("```json","```").replace("```","")) and collect the JSON values of
the surviving lines, discarding unparseable lines individually. -/
def parseJsonl (s : List Char) : List JVal :=
  (pySplitlines (replaceAll "```".data [] (replaceAll "```json".data "```".data s))).filterMap
    lineHandle

/-- replaceAll is the identity when the pattern head never occurs. -/
theorem replaceAll_eq_self (pat rep : List Char) (c0 : Char) (hc0 : pat.head? = some c0) :
    ∀ l : List Char, c0 ∉ l → replaceAll pat rep l = l := by
  intro l
  induction l with
  | nil => intro _; rw [replaceAll]
  | cons c t ih =>
    intro hmem
    rw [replaceAll, if_neg, ih (fun h => hmem (List.mem_cons_of_mem c h))]
    intro hpre
    obtain ⟨hne, hp⟩ := hpre
    cases hpat : pat with
    | nil => exact hne hpat
    | cons p0 pt =>
      rw [hpat] at hp hc0
      simp only [List.head?_cons, Option.some.injEq] at hc0
      rw [List.isPrefixOf_cons₂] at hp
      have h1 : p0 = c := by
        have h2 := (Bool.and_eq_true _ _).mp hp
        exact eq_of_beq h2.1
      refine hmem ?_
      rw [← hc0, h1]
      exact List.mem_cons_self c t

/-- takeWhile distributes over an append whose left part satisfies the
predicate everywhere. -/
theorem takeWhile_append_all (p : Char → Bool) (l1 l2 : List Char)
    (h : ∀ a ∈ l1, p a = true) :
    (l1 ++ l2).takeWhile p = l1 ++ l2.takeWhile p := by
  induction l1 with
  | nil => simp
  | cons c t ih =>
    rw [List.cons_append, List.takeWhile_cons, if_pos (h c (List.mem_cons_self c t)),
      ih (fun a ha => h a (List.mem_cons_of_mem c ha)), List.cons_append]

/-- dropWhile skips an append whose left part satisfies the predicate
everywhere. -/
theorem dropWhile_append_all (p : Char → Bool) (l1 l2 : List Char)
    (h : ∀ a ∈ l1, p a = true) :
    (l1 ++ l2).dropWhile p = l2.dropWhile p := by
  induction l1 with
  | nil => simp
  | cons c t ih =>
    rw [List.cons_append, List.dropWhile_cons, if_pos (h c (List.mem_cons_self c t)),
      ih (fun a ha => h a (List.mem_cons_of_mem c ha))]

/-- notNL holds on newline-free lists. -/
theorem notNL_all (l : List Char) (hn : '\n' ∉ l) (hr : '\r' ∉ l) :
    ∀ a ∈ l, notNL a = true := by
  intro a ha
  unfold notNL
  have h1 : a ≠ '\n' := fun h => hn (h ▸ ha)
  have h2 : a ≠ '\r' := fun h => hr (h ▸ ha)
  simp [h1, h2]

/-- splitlines of a single newline-free nonempty line. -/
theorem pySplitlines_single (l : List Char) (hn : '\n' ∉ l) (hr : '\r' ∉ l)
    (hne : l ≠ []) : pySplitlines l = [l] := by
  obtain ⟨c, t, rfl⟩ : ∃ c t, l = c :: t := by
    cases l with
    | nil => exact absurd rfl hne
    | cons c t => exact ⟨c, t, rfl⟩
  rw [pySplitlines]
  have hdr : (c :: t).dropWhile notNL = [] := by
    have h1 := dropWhile_append_all notNL (c :: t) [] (notNL_all _ hn hr)
    simpa using h1
  rw [dif_pos hdr]
  have htk : (c :: t).takeWhile notNL = c :: t := by
    have h1 := takeWhile_append_all notNL (c :: t) [] (notNL_all _ hn hr)
    simpa using h1
  rw [htk]

/-- Splitting two newline-free lines glued with a line feed. -/
theorem pySplitlines_two (l1 l2 : List Char)
    (hn1 : '\n' ∉ l1) (hr1 : '\r' ∉ l1) (hn2 : '\n' ∉ l2) (hr2 : '\r' ∉ l2)
    (hne2 : l2 ≠ []) :
    pySplitlines (l1 ++ '\n' :: l2) = [l1, l2] := by
  have hdr : (l1 ++ '\n' :: l2).dropWhile notNL = '\n' :: l2 := by
    rw [dropWhile_append_all notNL l1 _ (notNL_all _ hn1 hr1), List.dropWhile_cons,
      if_neg (by simp [notNL])]
  have htk : (l1 ++ '\n' :: l2).takeWhile notNL = l1 := by
    rw [takeWhile_append_all notNL l1 _ (notNL_all _ hn1 hr1), List.takeWhile_cons,
      if_neg (by simp [notNL]), List.append_nil]
  obtain ⟨c, t, hct⟩ : ∃ c t, l1 ++ '\n' :: l2 = c :: t := by
    cases hx : l1 ++ '\n' :: l2 with
    | nil => exact absurd hx (by simp)
    | cons c t => exact ⟨c, t, rfl⟩
  rw [hct] at hdr htk ⊢
  rw [pySplitlines]
  rw [dif_neg (by rw [hdr]; simp)]
  rw [if_neg (by rw [hdr]; simp)]
  rw [htk, hdr]
  rw [show ('\n' :: l2).tail = l2 from rfl]
  rw [pySplitlines_single l2 hn2 hr2 hne2]

/-- C9: the LLM response parser is tolerant. For an input consisting of one
well-formed JSON object line and one line of stray prose (a line without an
opening brace), in either order, _parse_jsonl returns exactly the one parsed
object; the prose line is discarded individually and nothing is raised (the
model is a total function). -/
theorem c9_parse_jsonl_tolerant (l1 l2 : List Char) (o : JVal)
    (hb1 : '`' ∉ l1) (hb2 : '`' ∉ l2)
    (hn1 : '\n' ∉ l1) (hr1 : '\r' ∉ l1) (hn2 : '\n' ∉ l2) (hr2 : '\r' ∉ l2)
    (hne2 : l2 ≠ [])
    (hhd : (pyStrip l1).head? = some '{')
    (hcl : '}' ∈ pyStrip l1)
    (hload : jsonLoads (rstripCommas (pyStrip l1)) = some o)
    (hprose : '{' ∉ l2) :
    parseJsonl (l1 ++ '\n' :: l2) = [o] ∧ parseJsonl (l2 ++ '\n' :: l1) = [o] := by
  have hne1 : l1 ≠ [] := by
    intro h
    rw [h] at hhd
    simp [pyStrip] at hhd
  have hL1 : lineHandle l1 = some o := by
    simp only [lineHandle]
    rw [if_neg (show ¬(pyStrip l1 = []) by intro h; rw [h] at hhd; simp at hhd)]
    rw [if_pos ⟨hhd, hcl⟩, hload]
  have hL2 : lineHandle l2 = none := by
    simp only [lineHandle]
    by_cases h0 : pyStrip l2 = []
    · rw [if_pos h0]
    · rw [if_neg h0]
      have hnb : '{' ∉ pyStrip l2 := fun h => hprose ((pyStrip_sublist l2).subset h)
      rw [if_neg (fun hand => hnb (List.mem_of_mem_head? hand.1)),
        if_neg (fun hand => hnb hand.1)]
  have hfence : ∀ l : List Char, '`' ∉ l →
      replaceAll ("```".data) [] (replaceAll ("```json".data) ("```".data) l) = l := by
    intro l hl
    rw [replaceAll_eq_self ("```json".data) ("```".data) '`' rfl l hl,
      replaceAll_eq_self ("```".data) [] '`' rfl l hl]
  constructor
  · have hmem : '`' ∉ l1 ++ '\n' :: l2 := by
      intro h
      rcases List.mem_append.mp h with h1 | h1
      · exact hb1 h1
      · rcases List.mem_cons.mp h1 with h2 | h2
        · exact absurd h2 (by decide)
        · exact hb2 h2
    unfold parseJsonl
    rw [hfence _ hmem, pySplitlines_two l1 l2 hn1 hr1 hn2 hr2 hne2]
    rw [List.filterMap_cons, hL1, List.filterMap_cons, hL2, List.filterMap_nil]
  · have hmem : '`' ∉ l2 ++ '\n' :: l1 := by
      intro h
      rcases List.mem_append.mp h with h1 | h1
      · exact hb2 h1
      · rcases List.mem_cons.mp h1 with h2 | h2
        · exact absurd h2 (by decide)
        · exact hb1 h2
    unfold parseJsonl
    rw [hfence _ hmem, pySplitlines_two l2 l1 hn2 hr2 hn1 hr1 hne1]
    rw [List.filterMap_cons, hL2, List.filterMap_cons, hL1, List.filterMap_nil]

/-- Witness for C9 at a concrete JSON line and prose line. -/
theorem c9_parse_jsonl_tolerant_witness :
    parseJsonl ("\x7b\"id\": 0\x7d".data ++ '\n' :: "Here are the results".data) =
      [JVal.obj [("id", JVal.num "0")]] ∧
    parseJsonl ("Here are the results".data ++ '\n' :: "\x7b\"id\": 0\x7d".data) =
      [JVal.obj [("id", JVal.num "0")]] :=
  c9_parse_jsonl_tolerant ("\x7b\"id\": 0\x7d".data) ("Here are the results".data)
    (JVal.obj [("id", JVal.num "0")]) (by decide) (by decide) (by decide) (by decide)
    (by decide) (by decide) (by decide) (by rfl) (by decide) (by rfl) (by decide)

/-- The closed strict-category vocabulary of helpers/ai_labeler.py. -/
def CATEGORIES : List String :=
  ["Pizza", "Cafe", "Bakery", "Dessert", "Pub", "Deli",
   "Fast Food", "Restaurant", "Mobile", "Venue Dining", "Other"]

/-- The closed cuisine vocabulary of helpers/ai_labeler.py. -/
def CUISINE_CATEGORIES : List String :=
  ["Mexican", "Chinese", "Japanese", "Thai", "Indian", "Mediterranean", "Greek",
   "Middle Eastern", "Korean", "Vietnamese", "Italian", "BBQ", "Seafood",
   "American", "Caribbean", "Latin American", "Other"]

/-- normalize_strict: snap to the strict vocabulary, defaulting to Other. -/
def normalize_strict (cat : String) : String :=
  if cat ∈ CATEGORIES then cat else "Other"

/-- normalize_cuisine: snap to the cuisine vocabulary, defaulting to Other. -/
def normalize_cuisine (cat : String) : String :=
  if cat ∈ CUISINE_CATEGORIES then cat else "Other"

/-- One row of the categories store as handled by label_categories_via_ai
(the eight columns the labeler normalizes and writes). -/
structure AiCatRow where
  facility : String
  address : String
  city : String
  category : String
  cuisine : String
  ai_category : String
  ai_confidence : String
  ai_rationale : String
deriving DecidableEq

/-- Column normalization applied on load (fillna/astype(str)/strip for each
of the eight columns). -/
def stripAiRow (r : AiCatRow) : AiCatRow :=
  ⟨pyStripS r.facility, pyStripS r.address, pyStripS r.city, pyStripS r.category,
   pyStripS r.cuisine, pyStripS r.ai_category, pyStripS r.ai_confidence,
   pyStripS r.ai_rationale⟩

/-- The default of the limit parameter of label_categories_via_ai. -/
def aiDefaultLimit : Nat :=
  20

/-- Candidate selection of label_categories_via_ai: the triples of the
normalized store rows with an empty category, deduplicated keeping the first
occurrence and truncated by head(limit). -/
def selectPending (cats0 : List AiCatRow) (limit : Nat) :
    List (String × String × String) :=
  (pyDedup (((cats0.map stripAiRow).filter (fun r => r.category = "")).map
    (fun r => (r.facility, r.address, r.city)))).take limit

/-- One prompt item (sequential id plus the establishment triple). -/
structure AiItem where
  id : Int
  facility : String
  address : String
  city : String
deriving DecidableEq

/-- The items list: pending triples with their positional index as id. -/
def mkItems (pending : List (String × String × String)) : List AiItem :=
  pending.enum.map (fun p => ⟨Int.ofNat p.1, p.2.1, p.2.2.1, p.2.2.2⟩)

/-- Lookup in a parsed JSON object (dict semantics: the last binding of a
repeated key wins); None on other values, which do not occur for
_parse_jsonl output. -/
def objGet (o : JVal) (k : String) : Option JVal :=
  match o with
  | JVal.obj fields => (fields.reverse.find? (fun p => p.1 == k)).map (fun p => p.2)
  | _ => none

/-- Python str() of a parsed JSON scalar, as far as the labeler needs it:
strings decode the standard escapes (a lone \\u escape is kept verbatim,
it does not occur in the data), numbers render their lexeme, booleans and
null render the Python constant names; containers do not occur in the label
fields and render as their lexeme-free placeholder. -/
def decodeJString : List Char → List Char
  | [] => []
  | '\\' :: e :: t =>
    if e = 'n' then '\n' :: decodeJString t
    else if e = 't' then '\t' :: decodeJString t
    else if e = 'r' then '\r' :: decodeJString t
    else if e = 'b' then '\x08' :: decodeJString t
    else if e = 'f' then '\x0c' :: decodeJString t
    else if e = '"' then '"' :: decodeJString t
    else if e = '\\' then '\\' :: decodeJString t
    else if e = '/' then '/' :: decodeJString t
    else '\\' :: e :: decodeJString t
  | c :: t => c :: decodeJString t

/-- Python str() of a parsed JSON value (see decodeJString). -/
def jvalToPyStr (v : JVal) : String :=
  match v with
  | JVal.str raw => String.mk (decodeJString raw.data)
  | JVal.num lit => lit
  | JVal.bool true => "True"
  | JVal.bool false => "False"
  | JVal.null => "None"
  | JVal.arr _ => "[]"
  | JVal.obj _ => "\x7b\x7d"

/-- Numeric value of a digit string. -/
def natOfDigits (l : List Char) : Nat :=
  l.foldl (fun acc c => acc * 10 + (c.toNat - '0'.toNat)) 0

/-- Python int() of a decimal integer literal (the id values sent by the
model are plain integers). -/
def parseIntLexeme (l : List Char) : Option Int :=
  match l with
  | '-' :: t =>
    if t ≠ [] ∧ t.all isDigit then some (-(Int.ofNat (natOfDigits t))) else none
  | t =>
    if t ≠ [] ∧ t.all isDigit then some (Int.ofNat (natOfDigits t)) else none

/-- Python int(r.get("id")): integer JSON numbers and integer strings
convert, booleans convert to 0/1, everything else raises and the row is
skipped. -/
def jvalToId (v : JVal) : Option Int :=
  match v with
  | JVal.num lit => parseIntLexeme lit.data
  | JVal.str raw => parseIntLexeme (pyStrip (decodeJString raw.data))
  | JVal.bool b => some (if b then 1 else 0)
  | _ => none

/-- Basic Python float() acceptance test for a stripped string
(sign, digits, optional fraction and exponent). -/
def isFloatLex (l : List Char) : Bool :=
  let l1 := match l with
    | '+' :: t => t
    | '-' :: t => t
    | _ => l
  let ip := l1.takeWhile isDigit
  let r1 := l1.dropWhile isDigit
  let hasupra : Bool × List Char := match r1 with
    | '.' :: t => (!(t.takeWhile isDigit).isEmpty || !ip.isEmpty, t.dropWhile isDigit)
    | _ => (!ip.isEmpty, r1)
  match hasupra with
  | (ok, r2) =>
    ok && (match r2 with
      | [] => true
      | e :: t =>
        if e = 'e' ∨ e = 'E' then
          let t2 := match t with
            | '+' :: t3 => t3
            | '-' :: t3 => t3
            | _ => t
          !(t2.takeWhile isDigit).isEmpty && (t2.dropWhile isDigit).isEmpty
        else false)

/-- conf = r.get("confidence",""); try conf = float(conf) except conf = "":
numbers keep their lexeme, numeric strings keep their stripped text,
booleans become 1.0 / 0.0, everything else ends as the empty string. -/
def coerceConf (v : Option JVal) : String :=
  match v with
  | some (JVal.num lit) => lit
  | some (JVal.str raw) =>
    if isFloatLex (pyStrip (decodeJString raw.data)) then
      String.mk (pyStrip (decodeJString raw.data))
    else ""
  | some (JVal.bool b) => if b then "1.0" else "0.0"
  | _ => ""

/-- One normalized prediction record of label_categories_via_ai. -/
structure AiPred where
  category : String
  cuisine : String
  ai_category : String
  ai_confidence : String
  ai_rationale : String
deriving DecidableEq

/-- str(r.get(k, "")).strip() for a parsed response row. -/
def strField (r : JVal) (k : String) : String :=
  match objGet r k with
  | some v => pyStripS (jvalToPyStr v)
  | none => ""

/-- The predictions dict of label_categories_via_ai (lines 271-292): rows
without a usable id are skipped; the strict category and cuisine are snapped
to their vocabularies; ai_category and rationale are applied verbatim after
stripping; confidence is float-coerced or dropped. -/
def buildPredictions (rows : List JVal) : List (Int × AiPred) :=
  rows.foldl (fun acc r =>
    match (objGet r "id").bind jvalToId with
    | none => acc
    | some rid =>
      acc ++ [(rid, ⟨normalize_strict (strField r "strict_category"),
                     normalize_cuisine (strField r "cuisine"),
                     strField r "ai_category",
                     coerceConf (objGet r "confidence"),
                     strField r "rationale"⟩)]) []

/-- predictions.get(rid): the last binding wins. -/
def predsGet (preds : List (Int × AiPred)) (rid : Int) : Option AiPred :=
  ((preds.reverse.find? (fun p => p.1 == rid)).map (fun p => p.2))

/-- The row mask of the application loop: exact triple match with a still
empty category. -/
def aiHit (it : AiItem) (r : AiCatRow) : Prop :=
  r.facility = it.facility ∧ r.address = it.address ∧ r.city = it.city ∧ r.category = ""

instance (it : AiItem) (r : AiCatRow) : Decidable (aiHit it r) := by
  unfold aiHit
  infer_instance

/-- Application of one prediction: update the five label columns of every
masked row and count the updates. -/
def applyOne (cats : List AiCatRow) (it : AiItem) (pred : AiPred) :
    List AiCatRow × Nat :=
  if cats.any (fun r => decide (aiHit it r)) then
    (cats.map (fun r =>
      if aiHit it r then
        { r with
          category := pred.category
          cuisine := pred.cuisine
          ai_category := pred.ai_category
          ai_confidence := pred.ai_confidence
          ai_rationale := pred.ai_rationale }
      else r),
     cats.countP (fun r => decide (aiHit it r)))
  else (cats, 0)

/-- The application loop of label_categories_via_ai: items in order, each
with its prediction if present, updating the store in place and accumulating
the applied count. -/
def labelApply (cats : List AiCatRow) (items : List AiItem)
    (preds : List (Int × AiPred)) : List AiCatRow × Nat :=
  items.foldl (fun acc it =>
    match predsGet preds it.id with
    | none => acc
    | some pred =>
      let r := applyOne acc.1 it pred
      (r.1, acc.2 + r.2)) (cats, 0)

/-- The pure core of label_categories_via_ai for one run: normalize the
store, select pending candidates (head(limit)), number them, parse the model
response, normalize the predictions and apply them; returns the updated
store and the applied count. The evidence gathering and prompt construction
only influence the request text, not this data path. -/
def labelRunModel (cats0 : List AiCatRow) (limit : Nat) (responseText : List Char) :
    List AiCatRow × Nat :=
  labelApply (cats0.map stripAiRow) (mkItems (selectPending cats0 limit))
    (buildPredictions (parseJsonl responseText))

/-- C7 counterexample: the labeler never synthesizes a fallback label from
the facility name. A selected candidate with facility "Joe\x27s Pizza, LLC."
whose predicted free-text ai_category is the generic placeholder "Other"
keeps the verbatim (stripped) "Other" in the applied store; no
punctuation-stripped lower-cased "joes pizza llc" ever appears. -/
theorem c7_counterexample_fallback_label :
    ((labelRunModel
        [⟨"Joe\x27s Pizza, LLC.", "1 Main St", "Erie", "", "", "", "", ""⟩]
        aiDefaultLimit
        "\x7b\"id\": 0, \"ai_category\": \"Other\"\x7d".data).1.map
      AiCatRow.ai_category = ["Other"]) ∧
    "Other" ≠ "joes pizza llc" := by
  constructor
  · simp +decide [labelRunModel, labelApply, applyOne, aiHit, predsGet,
      buildPredictions, strField, objGet, jvalToPyStr, decodeJString, jvalToId,
      parseIntLexeme, natOfDigits, normalize_strict, normalize_cuisine,
      CATEGORIES, CUISINE_CATEGORIES, coerceConf, isFloatLex, mkItems,
      selectPending, stripAiRow, pyStripS, pyStrip, pyIsSpace, pyDedup,
      pyDedupBy, parseJsonl, replaceAll, pySplitlines, lineHandle,
      rstripCommas, sliceBraces, jsonLoads, parseJVal, parseJ, dropJWs, jsonWs,
      scanJString, scanJNumber, isDigit, isHexDigit, notNL, aiDefaultLimit]
  · decide

/-- C7 (amended): predictions are applied verbatim — after applying one
prediction, every store row is either untouched or a masked row whose five
label columns were overwritten with exactly the prediction's (already
vocabulary-normalized and stripped) values; the free-text ai_category is the
model's value as-is, never a label synthesized from the facility name. -/
theorem c7_prediction_applied_verbatim (cats : List AiCatRow) (it : AiItem)
    (pred : AiPred) (r : AiCatRow) (hr : r ∈ (applyOne cats it pred).1) :
    r ∈ cats ∨ ∃ r0 ∈ cats, aiHit it r0 ∧
      r.facility = r0.facility ∧ r.address = r0.address ∧ r.city = r0.city ∧
      r.category = pred.category ∧ r.cuisine = pred.cuisine ∧
      r.ai_category = pred.ai_category ∧
      r.ai_confidence = pred.ai_confidence ∧
      r.ai_rationale = pred.ai_rationale := by
  rw [applyOne] at hr
  by_cases hany : cats.any (fun r => decide (aiHit it r))
  · rw [if_pos hany] at hr
    simp only [List.mem_map] at hr
    obtain ⟨r0, hr0, heq⟩ := hr
    by_cases hhit : aiHit it r0
    · right
      refine ⟨r0, hr0, hhit, ?_⟩
      rw [if_pos hhit] at heq
      subst heq
      exact ⟨rfl, rfl, rfl, rfl, rfl, rfl, rfl, rfl⟩
    · left
      rw [if_neg hhit] at heq
      subst heq
      exact hr0
  · rw [if_neg hany] at hr
    exact Or.inl hr

theorem c7_prediction_applied_verbatim_witness :
    ((⟨"F", "A", "C", "Pizza", "Other", "neapolitan pizza", "0.9", "sign"⟩ :
        AiCatRow) ∈ [(⟨"F", "A", "C", "", "", "", "", ""⟩ : AiCatRow)]) ∨
    ∃ r0 ∈ [(⟨"F", "A", "C", "", "", "", "", ""⟩ : AiCatRow)],
      aiHit ⟨0, "F", "A", "C"⟩ r0 ∧
      (⟨"F", "A", "C", "Pizza", "Other", "neapolitan pizza", "0.9", "sign"⟩ :
        AiCatRow).facility = r0.facility ∧
      (⟨"F", "A", "C", "Pizza", "Other", "neapolitan pizza", "0.9", "sign"⟩ :
        AiCatRow).address = r0.address ∧
      (⟨"F", "A", "C", "Pizza", "Other", "neapolitan pizza", "0.9", "sign"⟩ :
        AiCatRow).city = r0.city ∧
      (⟨"F", "A", "C", "Pizza", "Other", "neapolitan pizza", "0.9", "sign"⟩ :
        AiCatRow).category =
        (⟨"Pizza", "Other", "neapolitan pizza", "0.9", "sign"⟩ : AiPred).category ∧
      (⟨"F", "A", "C", "Pizza", "Other", "neapolitan pizza", "0.9", "sign"⟩ :
        AiCatRow).cuisine =
        (⟨"Pizza", "Other", "neapolitan pizza", "0.9", "sign"⟩ : AiPred).cuisine ∧
      (⟨"F", "A", "C", "Pizza", "Other", "neapolitan pizza", "0.9", "sign"⟩ :
        AiCatRow).ai_category =
        (⟨"Pizza", "Other", "neapolitan pizza", "0.9", "sign"⟩ : AiPred).ai_category ∧
      (⟨"F", "A", "C", "Pizza", "Other", "neapolitan pizza", "0.9", "sign"⟩ :
        AiCatRow).ai_confidence =
        (⟨"Pizza", "Other", "neapolitan pizza", "0.9", "sign"⟩ : AiPred).ai_confidence ∧
      (⟨"F", "A", "C", "Pizza", "Other", "neapolitan pizza", "0.9", "sign"⟩ :
        AiCatRow).ai_rationale =
        (⟨"Pizza", "Other", "neapolitan pizza", "0.9", "sign"⟩ : AiPred).ai_rationale :=
  c7_prediction_applied_verbatim
    [⟨"F", "A", "C", "", "", "", "", ""⟩] ⟨0, "F", "A", "C"⟩
    ⟨"Pizza", "Other", "neapolitan pizza", "0.9", "sign"⟩
    ⟨"F", "A", "C", "Pizza", "Other", "neapolitan pizza", "0.9", "sign"⟩
    (by decide)

/-- A store of 21 distinct unlabeled establishments, one more than the
default selection limit. -/
def c8Store : List AiCatRow :=
  [⟨"F0", "A", "C", "", "", "", "", ""⟩,
   ⟨"F1", "A", "C", "", "", "", "", ""⟩,
   ⟨"F2", "A", "C", "", "", "", "", ""⟩,
   ⟨"F3", "A", "C", "", "", "", "", ""⟩,
   ⟨"F4", "A", "C", "", "", "", "", ""⟩,
   ⟨"F5", "A", "C", "", "", "", "", ""⟩,
   ⟨"F6", "A", "C", "", "", "", "", ""⟩,
   ⟨"F7", "A", "C", "", "", "", "", ""⟩,
   ⟨"F8", "A", "C", "", "", "", "", ""⟩,
   ⟨"F9", "A", "C", "", "", "", "", ""⟩,
   ⟨"F10", "A", "C", "", "", "", "", ""⟩,
   ⟨"F11", "A", "C", "", "", "", "", ""⟩,
   ⟨"F12", "A", "C", "", "", "", "", ""⟩,
   ⟨"F13", "A", "C", "", "", "", "", ""⟩,
   ⟨"F14", "A", "C", "", "", "", "", ""⟩,
   ⟨"F15", "A", "C", "", "", "", "", ""⟩,
   ⟨"F16", "A", "C", "", "", "", "", ""⟩,
   ⟨"F17", "A", "C", "", "", "", "", ""⟩,
   ⟨"F18", "A", "C", "", "", "", "", ""⟩,
   ⟨"F19", "A", "C", "", "", "", "", ""⟩,
   ⟨"F20", "A", "C", "", "", "", "", ""⟩]

/-- C8 counterexample: the default selection limit is 20, not 50, and
selection is head(limit) truncation rather than chunking into batches — with
21 distinct unlabeled rows the single processed batch holds 20 candidates
and the 21st pending establishment is not selected at all in the run. -/
theorem c8_counterexample_batching :
    aiDefaultLimit = 20 ∧ ¬ aiDefaultLimit = 50 ∧
    (selectPending c8Store aiDefaultLimit).length = 20 ∧
    ¬ (("F20", "A", "C") ∈ selectPending c8Store aiDefaultLimit) := by
  refine ⟨rfl, by decide, ?_, ?_⟩ <;>
    simp +decide [selectPending, stripAiRow, pyStripS, pyStrip, pyIsSpace,
      pyDedup, pyDedupBy, c8Store, aiDefaultLimit]

/-- C8 (amended): candidate selection takes the stripped store rows with an
empty category, keeps their (facility, address, city) triples deduplicated
with first occurrence kept, and truncates to the first `limit` of them
(default 20) as one single batch: the selection has at most `limit` entries,
contains no duplicate triple, and every selected triple is the triple of
some unlabeled stripped store row. -/
theorem c8_selection_shape (cats0 : List AiCatRow) (limit : Nat) :
    (selectPending cats0 limit).length ≤ limit ∧
    (selectPending cats0 limit).Nodup ∧
    ∀ t ∈ selectPending cats0 limit, ∃ r ∈ cats0, (stripAiRow r).category = "" ∧
      t = ((stripAiRow r).facility, (stripAiRow r).address, (stripAiRow r).city) := by
  refine ⟨?_, ?_, ?_⟩
  · rw [selectPending, List.length_take]
    exact min_le_left _ _
  · exact (nodup_pyDedup _).sublist (List.take_sublist _ _)
  · intro t ht
    rw [selectPending] at ht
    have ht2 := (mem_pyDedup _ _).mp (List.mem_of_mem_take ht)
    simp only [List.mem_map, List.mem_filter] at ht2
    obtain ⟨r1, ⟨⟨r0, hr0, hstrip⟩, hcat⟩, heq⟩ := ht2
    refine ⟨r0, hr0, ?_, ?_⟩
    · rw [hstrip]
      exact of_decide_eq_true hcat
    · rw [hstrip, heq]

theorem c8_selection_shape_witness :
    ∃ r ∈ [(⟨" F ", "A", "C", " ", "", "", "", ""⟩ : AiCatRow)],
      (stripAiRow r).category = "" ∧
      ("F", "A", "C") =
        ((stripAiRow r).facility, (stripAiRow r).address, (stripAiRow r).city) :=
  (c8_selection_shape [⟨" F ", "A", "C", " ", "", "", "", ""⟩] 20).2.2
    ("F", "A", "C")
    (by simp +decide [selectPending, stripAiRow, pyStripS, pyStrip, pyIsSpace,
      pyDedup, pyDedupBy])

end RestInspect
